import Mathlib

/-!
Verification of the pop3-codec grammar layer.

The Rust source builds all parsers from nom's *streaming* combinators over
byte slices.  We shallowly embed that combinator language: a parser maps a
byte list to either a successful split (remaining input plus value), a
recoverable syntax error (nom's `Err::Error`), or a request for more input
(nom's `Err::Incomplete`).  Machine strings are modelled as byte lists
(Rust `String` is a UTF-8 byte sequence); `std::str::from_utf8` is modelled
by an explicit UTF-8 validity check.  `u32` fields are modelled as `Nat`
together with the `< 2^32` bound where it matters.
-/

set_option maxRecDepth 10000

namespace Pop3

/-- Byte strings: each element is one octet. -/
abbrev Bytes := List Nat

/-- Outcome of a streaming nom parser: success with remaining input,
recoverable syntax error (`nom::Err::Error`), or `nom::Err::Incomplete`. -/
inductive PResult (α : Type) where
  | ok (rem : Bytes) (val : α)
  | err
  | incomplete
deriving DecidableEq, Repr

abbrev Parser (α : Type) := Bytes → PResult α

/-- ASCII lower-casing of one byte, as used by nom's `compare_no_case`. -/
def lowerByte (b : Nat) : Nat := if 65 ≤ b ∧ b ≤ 90 then b + 32 else b

/-- Result of nom's `Compare::compare` on byte slices. -/
inductive CmpResult where
  | ok
  | incomplete
  | error
deriving DecidableEq, Repr

/-- nom's `compare`/`compare_no_case` of the input (first argument) against a
tag (second argument): error on the first mismatching byte, incomplete when
the input is a strict prefix of a match, ok when the whole tag matched. -/
def cmpBytes (noCase : Bool) : Bytes → Bytes → CmpResult
  | _, [] => .ok
  | [], _ :: _ => .incomplete
  | a :: as, b :: bs =>
    if (if noCase then lowerByte a = lowerByte b else a = b) then cmpBytes noCase as bs
    else .error

/-- nom `bytes::streaming::tag`. -/
def tagP (t : Bytes) : Parser Bytes := fun i =>
  match cmpBytes false i t with
  | .ok => .ok (i.drop t.length) (i.take t.length)
  | .incomplete => .incomplete
  | .error => .err

/-- nom `bytes::streaming::tag_no_case`. -/
def tagNoCaseP (t : Bytes) : Parser Bytes := fun i =>
  match cmpBytes true i t with
  | .ok => .ok (i.drop t.length) (i.take t.length)
  | .incomplete => .incomplete
  | .error => .err

/-- nom `bytes::streaming::take_while`: maximal (possibly empty) run of
bytes satisfying `p`; incomplete when the run would extend past the end of
the available input. -/
def takeWhileP (p : Nat → Bool) : Parser Bytes := fun i =>
  match i.dropWhile p with
  | [] => .incomplete
  | post => .ok post (i.takeWhile p)

/-- nom `bytes::streaming::take_while1`. -/
def takeWhile1P (p : Nat → Bool) : Parser Bytes := fun i =>
  match i.dropWhile p with
  | [] => .incomplete
  | post => if i.takeWhile p = [] then .err else .ok post (i.takeWhile p)

/-- nom `bytes::streaming::take_while_m_n`. -/
def takeWhileMN (m n : Nat) (p : Nat → Bool) : Parser Bytes := fun i =>
  match i.dropWhile p with
  | [] => if n ≤ i.length then .ok (i.drop n) (i.take n) else .incomplete
  | _ :: _ =>
    if (i.takeWhile p).length < m then .err
    else if (i.takeWhile p).length ≤ n then .ok (i.dropWhile p) (i.takeWhile p)
    else .ok (i.drop n) (i.take n)

/-- nom `bytes::streaming::take_till`: consume until `p` holds. -/
def takeTillP (p : Nat → Bool) : Parser Bytes := fun i =>
  match i.dropWhile (fun b => !p b) with
  | [] => .incomplete
  | post => .ok post (i.takeWhile (fun b => !p b))

/-- nom `character::streaming::line_ending`: `"\n"` or `"\r\n"`. -/
def lineEndingP : Parser Bytes := fun i =>
  match i with
  | [] => .incomplete
  | b :: rest =>
    if b = 10 then .ok rest [10]
    else if b = 13 then
      match rest with
      | [] => .incomplete
      | c :: rest2 => if c = 10 then .ok rest2 [13, 10] else .err
    else .err

/-- nom `character::streaming::not_line_ending`: bytes up to (excluding) the
first `\r\n` or `\n`; a `\r` not followed by `\n` is an error; incomplete when
no line ending has arrived yet. -/
def notLineEndingP : Parser Bytes := fun i =>
  match i.dropWhile (fun b => b != 13 && b != 10) with
  | [] => .incomplete
  | 13 :: [] => .incomplete
  | 13 :: 10 :: _ =>
    .ok (i.dropWhile (fun b => b != 13 && b != 10)) (i.takeWhile (fun b => b != 13 && b != 10))
  | 13 :: _ :: _ => .err
  | post => .ok post (i.takeWhile (fun b => b != 13 && b != 10))

/-- `abnf_core::streaming::SP`: a single space byte. -/
def spP : Parser Unit := fun i =>
  match i with
  | [] => .incomplete
  | b :: rest => if b = 32 then .ok rest () else .err

/-- nom `combinator::map`. -/
def pmap {α β : Type} (p : Parser α) (f : α → β) : Parser β := fun i =>
  match p i with
  | .ok r v => .ok r (f v)
  | .err => .err
  | .incomplete => .incomplete

/-- nom `combinator::value`. -/
def valueP {α β : Type} (v : α) (p : Parser β) : Parser α := pmap p (fun _ => v)

/-- nom `sequence::tuple` of two parsers. -/
def seq2 {α β : Type} (p : Parser α) (q : Parser β) : Parser (α × β) := fun i =>
  match p i with
  | .ok r a =>
    match q r with
    | .ok r2 b => .ok r2 (a, b)
    | .err => .err
    | .incomplete => .incomplete
  | .err => .err
  | .incomplete => .incomplete

/-- nom `sequence::preceded`. -/
def precededP {α β : Type} (p : Parser α) (q : Parser β) : Parser β :=
  pmap (seq2 p q) Prod.snd

/-- nom `sequence::terminated`. -/
def terminatedP {α β : Type} (p : Parser α) (q : Parser β) : Parser α :=
  pmap (seq2 p q) Prod.fst

/-- nom `sequence::delimited`. -/
def delimitedP {α β γ : Type} (p : Parser α) (q : Parser β) (r : Parser γ) : Parser β :=
  pmap (seq2 p (seq2 q r)) (fun x => x.2.1)

/-- nom `sequence::separated_pair`. -/
def separatedPairP {α β γ : Type} (p : Parser α) (q : Parser β) (r : Parser γ) : Parser (α × γ) :=
  pmap (seq2 p (seq2 q r)) (fun x => (x.1, x.2.2))

/-- nom `combinator::opt`: recovers from `Error`, propagates `Incomplete`. -/
def optP {α : Type} (p : Parser α) : Parser (Option α) := fun i =>
  match p i with
  | .ok r v => .ok r (some v)
  | .err => .ok i none
  | .incomplete => .incomplete

/-- nom `branch::alt` of two parsers: the second is tried only on `Error`. -/
def altP {α : Type} (p q : Parser α) : Parser α := fun i =>
  match p i with
  | .err => q i
  | r => r

/-- nom `combinator::recognize`: the consumed prefix of a successful parse. -/
def recognizeP {α : Type} (p : Parser α) : Parser Bytes := fun i =>
  match p i with
  | .ok r _ => .ok r (i.take (i.length - r.length))
  | .err => .err
  | .incomplete => .incomplete

/-- Loop body of nom `multi::many0`, with explicit fuel.  nom's zero-length
match guard (`ErrorKind::Many0`) is kept; the fuel never runs out because
every iteration strictly shrinks the input of a suffix-returning parser. -/
def many0Aux {α : Type} (p : Parser α) : Nat → Bytes → PResult (List α)
  | 0, _ => .err
  | fuel + 1, i =>
    match p i with
    | .err => .ok i []
    | .incomplete => .incomplete
    | .ok r a =>
      if r.length = i.length then .err
      else
        match many0Aux p fuel r with
        | .ok r2 as => .ok r2 (a :: as)
        | .err => .err
        | .incomplete => .incomplete

/-- nom `multi::many0`. -/
def many0P {α : Type} (p : Parser α) : Parser (List α) := fun i =>
  many0Aux p (i.length + 1) i

/-- Loop body of nom `multi::separated_list1`, with explicit fuel. -/
def sepList1Aux {α β : Type} (sep : Parser β) (p : Parser α) : Nat → Bytes → PResult (List α)
  | 0, _ => .err
  | fuel + 1, i =>
    match sep i with
    | .err => .ok i []
    | .incomplete => .incomplete
    | .ok r1 _ =>
      if r1.length = i.length then .err
      else
        match p r1 with
        | .err => .ok i []
        | .incomplete => .incomplete
        | .ok r2 a =>
          match sepList1Aux sep p fuel r2 with
          | .ok r3 as => .ok r3 (a :: as)
          | .err => .err
          | .incomplete => .incomplete

/-- nom `multi::separated_list1`. -/
def sepList1P {α β : Type} (sep : Parser β) (p : Parser α) : Parser (List α) := fun i =>
  match p i with
  | .err => .err
  | .incomplete => .incomplete
  | .ok r a =>
    match sepList1Aux sep p (r.length + 1) r with
    | .ok r2 as => .ok r2 (a :: as)
    | .err => .err
    | .incomplete => .incomplete

/-- UTF-8 validity of a byte sequence (the check performed by
`std::str::from_utf8`), as a byte-at-a-time automaton: the state lists the
admissible ranges of the continuation bytes still expected. -/
def utf8Run : List (Nat × Nat) → Bytes → Bool
  | [], [] => true
  | _ :: _, [] => false
  | [], b :: rest =>
    if b ≤ 127 then utf8Run [] rest
    else if 194 ≤ b && b ≤ 223 then utf8Run [(128, 191)] rest
    else if b = 224 then utf8Run [(160, 191), (128, 191)] rest
    else if 225 ≤ b && b ≤ 236 then utf8Run [(128, 191), (128, 191)] rest
    else if b = 237 then utf8Run [(128, 159), (128, 191)] rest
    else if 238 ≤ b && b ≤ 239 then utf8Run [(128, 191), (128, 191)] rest
    else if b = 240 then utf8Run [(144, 191), (128, 191), (128, 191)] rest
    else if 241 ≤ b && b ≤ 243 then utf8Run [(128, 191), (128, 191), (128, 191)] rest
    else if b = 244 then utf8Run [(128, 143), (128, 191), (128, 191)] rest
    else false
  | (lo, hi) :: exp, b :: rest => if lo ≤ b && b ≤ hi then utf8Run exp rest else false

def utf8Valid (s : Bytes) : Bool := utf8Run [] s

/-- `map_res(p, from_utf8)`: succeed only when the matched bytes are valid
UTF-8 (the value stays a byte string, Rust's `&str` being its UTF-8 bytes). -/
def utf8Check (p : Parser Bytes) : Parser Bytes := fun i =>
  match p i with
  | .ok r v => if utf8Valid v then .ok r v else .err
  | .err => .err
  | .incomplete => .incomplete

/-! ## Data model (src/types) -/

/-- `types::command::Language`. -/
inductive Language where
  | lang (tag : Bytes)
  | wild
deriving DecidableEq, Repr

/-- `Language::to_string`. -/
def Language.toBytes : Language → Bytes
  | .lang tag => tag
  | .wild => [42]

/-- `types::command::Command`. -/
inductive Command where
  | user (name : Bytes)
  | pass (password : Bytes)
  | stat
  | listAll
  | list (msg : Nat)
  | retr (msg : Nat)
  | dele (msg : Nat)
  | noop
  | rset
  | quit
  | apop (name digest : Bytes)
  | top (msg n : Nat)
  | uidlAll
  | uidl (msg : Nat)
  | capa
  | stls
  | authAll
  | auth (mechanism : Bytes) (initialResponse : Option Bytes)
  | utf8
  | langAll
  | lang (langOrWild : Language)
deriving DecidableEq, Repr

/-- Decimal rendering of an unsigned integer (Rust `format!("{}", n)`). -/
def natDecimal (n : Nat) : Bytes :=
  if h : n < 10 then [n + 48]
  else natDecimal (n / 10) ++ [n % 10 + 48]
decreasing_by exact Nat.div_lt_self (by omega) (by omega)

/-- `Command::serialize` (src/types/command.rs). -/
def Command.serialize : Command → Bytes
  | .user name => [85, 83, 69, 82, 32] ++ name ++ [13, 10]
  | .pass password => [80, 65, 83, 83, 32] ++ password ++ [13, 10]
  | .stat => [83, 84, 65, 84, 13, 10]
  | .listAll => [76, 73, 83, 84, 13, 10]
  | .list msg => [76, 73, 83, 84, 32] ++ natDecimal msg ++ [13, 10]
  | .retr msg => [82, 69, 84, 82, 32] ++ natDecimal msg ++ [13, 10]
  | .dele msg => [68, 69, 76, 69, 32] ++ natDecimal msg ++ [13, 10]
  | .noop => [78, 79, 79, 80, 13, 10]
  | .rset => [82, 83, 69, 84, 13, 10]
  | .quit => [81, 85, 73, 84, 13, 10]
  | .apop name digest => [65, 80, 79, 80, 32] ++ name ++ [32] ++ digest ++ [13, 10]
  | .top msg n => [84, 79, 80, 32] ++ natDecimal msg ++ [32] ++ natDecimal n ++ [13, 10]
  | .uidlAll => [85, 73, 68, 76, 13, 10]
  | .uidl msg => [85, 73, 68, 76, 32] ++ natDecimal msg ++ [13, 10]
  | .capa => [67, 65, 80, 65, 13, 10]
  | .stls => [83, 84, 76, 83, 13, 10]
  | .authAll => [65, 85, 84, 72, 13, 10]
  | .auth mech (some ir) => [65, 85, 84, 72, 32] ++ mech ++ [32] ++ ir ++ [13, 10]
  | .auth mech none => [65, 85, 84, 72, 32] ++ mech ++ [13, 10]
  | .utf8 => [85, 84, 70, 56, 13, 10]
  | .langAll => [76, 65, 78, 71, 13, 10]
  | .lang l => [76, 65, 78, 71, 32] ++ l.toBytes ++ [13, 10]

/-- `types::response::Greeting`. -/
structure Greeting where
  code : List Bytes
  comment : Bytes
  timestamp : Option Bytes
deriving DecidableEq, Repr

/-- `types::response::SingleLine`. -/
structure SingleLine where
  code : List Bytes
  comment : Bytes
deriving DecidableEq, Repr

/-- `types::response::MultiLine<T>`. -/
structure MultiLine (T : Type) where
  head : SingleLine
  body : List T
deriving DecidableEq, Repr

/-- `types::response::Response<O, E>`: a protocol-level `+OK`/`-ERR`. -/
inductive Response (O E : Type) where
  | ok (payload : O)
  | err (payload : E)
deriving DecidableEq, Repr

/-- `types::response::DropListing`. -/
structure DropListing where
  messageCount : Nat
  maildropSize : Nat
deriving DecidableEq, Repr

/-- `types::response::ScanListing`. -/
structure ScanListing where
  messageId : Nat
  messageSize : Nat
deriving DecidableEq, Repr

/-- `types::response::UniqueIdListing`. -/
structure UniqueIdListing where
  messageId : Nat
  messageUid : Bytes
deriving DecidableEq, Repr

/-- `types::response::LanguageListing`. -/
structure LanguageListing where
  tag : Bytes
  description : Bytes
deriving DecidableEq, Repr

/-- `types::response::ExpirePolicy`. -/
inductive ExpirePolicy where
  | never
  | minimumDays (days : Nat)
deriving DecidableEq, Repr

/-- `types::response::Capability`. -/
inductive Capability where
  | top
  | user
  | sasl (mechanisms : List Bytes)
  | respCodes
  | loginDelay (minimumSeconds : Nat) (perUser : Bool)
  | pipelining
  | expire (policy : ExpirePolicy) (perUser : Bool)
  | uidl
  | implementation (text : Bytes)
  | stls
  | authRespCode
  | utf8 (inCredentials : Bool)
  | lang
  | other (tag : Bytes) (parameters : List Bytes)
deriving DecidableEq, Repr

/-- Rust `Vec::join(" ")` on a list of byte strings. -/
def joinSp : List Bytes → Bytes
  | [] => []
  | [x] => x
  | x :: xs => x ++ 32 :: joinSp xs

/-- `ExpirePolicy::to_string`. -/
def ExpirePolicy.toBytes : ExpirePolicy → Bytes
  | .never => [78, 69, 86, 69, 82]
  | .minimumDays d => natDecimal d

/-- `Capability::to_string` (src/types/response.rs). -/
def Capability.toBytes : Capability → Bytes
  | .top => [84, 79, 80]
  | .user => [85, 83, 69, 82]
  | .sasl ms => [83, 65, 83, 76, 32] ++ joinSp ms
  | .respCodes => [82, 69, 83, 80, 45, 67, 79, 68, 69, 83]
  | .loginDelay secs perUser =>
    [76, 79, 71, 73, 78, 45, 68, 69, 76, 65, 89, 32] ++ natDecimal secs ++
      (if perUser then [32, 85, 83, 69, 82] else [])
  | .pipelining => [80, 73, 80, 69, 76, 73, 78, 73, 78, 71]
  | .expire policy perUser =>
    [69, 88, 80, 73, 82, 69, 32] ++ policy.toBytes ++
      (if perUser then [32, 85, 83, 69, 82] else [])
  | .uidl => [85, 73, 68, 76]
  | .implementation text => [73, 77, 80, 76, 69, 77, 69, 78, 84, 65, 84, 73, 79, 78, 32] ++ text
  | .stls => [83, 84, 76, 83]
  | .authRespCode => [65, 85, 84, 72, 45, 82, 69, 83, 80, 45, 67, 79, 68, 69]
  | .utf8 inCred => if inCred then [85, 84, 70, 56, 32, 85, 83, 69, 82] else [85, 84, 70, 56]
  | .lang => [76, 65, 78, 71]
  | .other tag params => tag ++ [32] ++ joinSp params

/-! ## Character classes -/

/-- `abnf_core is_ALPHA`. -/
def is_ALPHA (b : Nat) : Bool := (65 ≤ b && b ≤ 90) || (97 ≤ b && b ≤ 122)

/-- ASCII digit. -/
def is_digit (b : Nat) : Bool := 48 ≤ b && b ≤ 57

/-- nom `is_alphanumeric`. -/
def is_alphanumeric (b : Nat) : Bool := is_ALPHA b || is_digit b

/-- `abnf_core is_VCHAR`: printable ASCII `0x21..=0x7E`. -/
def is_VCHAR (b : Nat) : Bool := 33 ≤ b && b ≤ 126

/-- `parse::command::is_auth_char`. -/
def is_auth_char (b : Nat) : Bool := is_ALPHA b || is_digit b || b == 45 || b == 95

/-- `parse::command::is_base64_char`. -/
def is_base64_char (b : Nat) : Bool := is_ALPHA b || is_digit b || b == 43 || b == 47

/-- `parse::response::is_rchar`: printable ASCII excluding `/` and `]`. -/
def is_rchar (b : Nat) : Bool := (33 ≤ b && b ≤ 46) || (48 ≤ b && b ≤ 92) || (94 ≤ b && b ≤ 127)

/-- `parse::response::is_gchar`: printable ASCII (space included) excluding `<`. -/
def is_gchar (b : Nat) : Bool := (32 ≤ b && b ≤ 59) || (61 ≤ b && b ≤ 127)

/-- `parse::response::is_schar`: printable ASCII (space included) excluding `[`. -/
def is_schar (b : Nat) : Bool := (32 ≤ b && b ≤ 90) || (92 ≤ b && b ≤ 127)

/-- `parse::response::is_cchar`: printable ASCII excluding `.` and space. -/
def is_cchar (b : Nat) : Bool := (33 ≤ b && b ≤ 45) || (47 ≤ b && b ≤ 127)

/-! ## Primitive token parsers (src/parse/mod.rs) -/

/-- Numeric value of an ASCII digit string (big-endian base 10). -/
def decVal (ds : Bytes) : Nat := ds.foldl (fun a b => a * 10 + (b - 48)) 0

/-- `parse::number`: `map_res(map_res(digit1, from_utf8), str::parse::<u32>)`.
Rust's checked conversion fails exactly when the value exceeds `u32::MAX`. -/
def number : Parser Nat := fun i =>
  match utf8Check (takeWhile1P is_digit) i with
  | .ok r ds => if decVal ds < 4294967296 then .ok r (decVal ds) else .err
  | .err => .err
  | .incomplete => .incomplete

/-- `parse::language`: `1*8ALPHA *("-" 1*8alphanum)`, recognized. -/
def language : Parser Bytes :=
  utf8Check (recognizeP (seq2 (takeWhileMN 1 8 is_ALPHA)
    (many0P (seq2 (tagP [45]) (takeWhileMN 1 8 is_alphanumeric)))))

/-- `parse::param`: `1*VCHAR`. -/
def param : Parser Bytes := utf8Check (takeWhile1P is_VCHAR)

/-! ## Command grammar (src/parse/command.rs) -/

/-- `parse::command::user`. -/
def user : Parser Command :=
  pmap (seq2 (tagNoCaseP [85, 83, 69, 82]) (seq2 (tagP [32]) (utf8Check notLineEndingP)))
    (fun x => .user x.2.2)

/-- `parse::command::pass`. -/
def pass : Parser Command :=
  pmap (seq2 (tagNoCaseP [80, 65, 83, 83]) (seq2 (tagP [32]) (utf8Check notLineEndingP)))
    (fun x => .pass x.2.2)

/-- `parse::command::stat`. -/
def stat : Parser Command := valueP .stat (tagNoCaseP [83, 84, 65, 84])

/-- `parse::command::list`. -/
def list : Parser Command :=
  pmap (seq2 (tagNoCaseP [76, 73, 83, 84]) (optP (pmap (seq2 (tagP [32]) number) Prod.snd)))
    (fun x => match x.2 with
      | some msg => .list msg
      | none => .listAll)

/-- `parse::command::retr`. -/
def retr : Parser Command :=
  pmap (seq2 (tagNoCaseP [82, 69, 84, 82]) (seq2 (tagP [32]) number)) (fun x => .retr x.2.2)

/-- `parse::command::dele`. -/
def dele : Parser Command :=
  pmap (seq2 (tagNoCaseP [68, 69, 76, 69]) (seq2 (tagP [32]) number)) (fun x => .dele x.2.2)

/-- `parse::command::noop`. -/
def noop : Parser Command := valueP .noop (tagNoCaseP [78, 79, 79, 80])

/-- `parse::command::rset`. -/
def rset : Parser Command := valueP .rset (tagNoCaseP [82, 83, 69, 84])

/-- `parse::command::quit`. -/
def quit : Parser Command := valueP .quit (tagNoCaseP [81, 85, 73, 84])

/-- `parse::command::apop`. -/
def apop : Parser Command :=
  pmap (seq2 (tagNoCaseP [65, 80, 79, 80]) (seq2 (tagP [32])
      (seq2 (utf8Check (takeWhileP (fun b => b != 32)))
        (seq2 (tagP [32]) (utf8Check notLineEndingP)))))
    (fun x => .apop x.2.2.1 x.2.2.2.2)

/-- `parse::command::top`. -/
def top : Parser Command :=
  pmap (seq2 (tagNoCaseP [84, 79, 80]) (seq2 (tagP [32]) (seq2 number (seq2 (tagP [32]) number))))
    (fun x => .top x.2.2.1 x.2.2.2.2)

/-- `parse::command::uidl`. -/
def uidl : Parser Command :=
  pmap (seq2 (tagNoCaseP [85, 73, 68, 76]) (optP (precededP (tagP [32]) number)))
    (fun x => match x.2 with
      | some msg => .uidl msg
      | none => .uidlAll)

/-- `parse::command::capa`. -/
def capa : Parser Command := valueP .capa (tagNoCaseP [67, 65, 80, 65])

/-- `parse::command::stls`. -/
def stls : Parser Command := valueP .stls (tagNoCaseP [83, 84, 76, 83])

/-- `parse::command::auth_type`. -/
def auth_type : Parser Bytes := utf8Check (takeWhile1P is_auth_char)

/-- `parse::command::base64`. -/
def base64 : Parser Bytes :=
  utf8Check (recognizeP (seq2 (takeWhileP is_base64_char)
    (optP (altP (tagP [61, 61]) (tagP [61])))))

/-- `parse::command::auth`. -/
def auth : Parser Command :=
  altP
    (pmap (seq2 (tagNoCaseP [65, 85, 84, 72]) (seq2 (tagP [32]) (seq2 auth_type
        (optP (pmap (seq2 (tagP [32]) (altP base64 (utf8Check (tagP [61])))) Prod.snd)))))
      (fun x => .auth x.2.2.1 x.2.2.2))
    (pmap (tagNoCaseP [65, 85, 84, 72]) (fun _ => .authAll))

/-- `parse::command::utf8`. -/
def utf8 : Parser Command := valueP .utf8 (tagNoCaseP [85, 84, 70, 56])

/-- `parse::command::lang_or_wild`. -/
def lang_or_wild : Parser Language :=
  altP (valueP Language.wild (tagP [42])) (pmap language Language.lang)

/-- `parse::command::lang`. -/
def lang : Parser Command :=
  pmap (seq2 (tagNoCaseP [76, 65, 78, 71]) (optP (precededP (tagP [32]) lang_or_wild)))
    (fun x => match x.2 with
      | some l => .lang l
      | none => .langAll)

/-- `parse::command` entry point: the alternatives in source order, then the
terminating line ending. -/
def command : Parser Command :=
  terminatedP
    (altP user (altP pass (altP apop (altP stls (altP capa (altP quit (altP stat
      (altP list (altP retr (altP dele (altP noop (altP rset (altP top
        (altP uidl (altP auth (altP utf8 lang))))))))))))))))
    lineEndingP

/-! ## Response grammar (src/parse/response.rs) -/

/-- `parse::response::resp_level`. -/
def resp_level : Parser Bytes := utf8Check (takeWhile1P is_rchar)

/-- `parse::response::resp_code`. -/
def resp_code : Parser (List Bytes) :=
  delimitedP (tagP [91]) (sepList1P (tagP [47]) resp_level) (tagP [93])

/-- `parse::response::timestamp`. -/
def timestamp : Parser Bytes :=
  delimitedP (tagP [60]) (utf8Check (takeTillP (fun b => b == 62))) (tagP [62])

/-- `parse::greeting` (src/parse/mod.rs), including the comment
reconstruction that replaces a present timestamp by the literal `<>`. -/
def greeting : Parser Greeting := fun i =>
  match seq2 (tagNoCaseP [43, 79, 75])
      (seq2 (optP (precededP spP resp_code))
        (seq2 (optP (precededP spP (seq2 (utf8Check (takeWhileP is_gchar))
            (seq2 (optP timestamp) (utf8Check (takeWhileP is_gchar))))))
          lineEndingP)) i with
  | .ok rem (_, maybeCode, maybeBody, _) =>
    let code := maybeCode.getD []
    match maybeBody with
    | some (c1, some ts, c2) => .ok rem ⟨code, c1 ++ [60, 62] ++ c2, some ts⟩
    | some (c1, none, c2) => .ok rem ⟨code, c1 ++ c2, none⟩
    | none => .ok rem ⟨code, [], none⟩
  | .err => .err
  | .incomplete => .incomplete

/-- `parse::response::Status` (private helper). -/
inductive Status where
  | okS
  | errS
deriving DecidableEq, Repr

/-- `parse::response::status`: `"+OK" / "-ERR"`, case-insensitive. -/
def status : Parser Status :=
  altP (valueP .okS (tagNoCaseP [43, 79, 75])) (valueP .errS (tagNoCaseP [45, 69, 82, 82]))

/-- `parse::response::text`. -/
def text : Parser (List Bytes × Bytes) :=
  altP
    (seq2 (terminatedP resp_code spP) (utf8Check notLineEndingP))
    (pmap (utf8Check (takeWhileP is_schar)) (fun c => ([], c)))

/-- `parse::response::head`. -/
def head : Parser SingleLine := fun i =>
  match optP (precededP spP text) i with
  | .ok r (some (code, comment)) => .ok r ⟨code, comment⟩
  | .ok r none => .ok r ⟨[], []⟩
  | .err => .err
  | .incomplete => .incomplete

/-- `parse::response::single_line`: status, then either the payload parser
(optionally after a mandatory space) on `+OK`, or always `head` on `-ERR`. -/
def single_line {O : Type} (P : Parser O) (payloadRequired : Bool) :
    Parser (Response O SingleLine) := fun i =>
  match status i with
  | .err => .err
  | .incomplete => .incomplete
  | .ok rem Status.okS =>
    match (if payloadRequired then spP rem else .ok rem ()) with
    | .err => .err
    | .incomplete => .incomplete
    | .ok rem2 _ =>
      match seq2 P lineEndingP rem2 with
      | .ok r (v, _) => .ok r (.ok v)
      | .err => .err
      | .incomplete => .incomplete
  | .ok rem Status.errS =>
    match seq2 head lineEndingP rem with
    | .ok r (h, _) => .ok r (.err h)
    | .err => .err
    | .incomplete => .incomplete

/-- `parse::response::drop_listing`. -/
def drop_listing : Parser DropListing :=
  pmap (separatedPairP number spP number) (fun x => ⟨x.1, x.2⟩)

/-- `parse::response::scan_listing`. -/
def scan_listing : Parser ScanListing :=
  pmap (separatedPairP number spP number) (fun x => ⟨x.1, x.2⟩)

/-- `parse::response::unique_id_listing` (uid: 1 to 70 bytes in
`0x21..=0x7E`; the `from_utf8(..).unwrap()` cannot fail on that range). -/
def unique_id_listing : Parser UniqueIdListing :=
  pmap (separatedPairP number spP (takeWhileMN 1 70 (fun b => 33 ≤ b && b ≤ 126)))
    (fun x => ⟨x.1, x.2⟩)

/-- `parse::response::language_listing`. -/
def language_listing : Parser LanguageListing :=
  pmap (separatedPairP language spP (utf8Check notLineEndingP)) (fun x => ⟨x.1, x.2⟩)

/-- `parse::response::multi_line`. -/
def multi_line {O : Type} (P : Parser O) : Parser (Response (MultiLine O) SingleLine) := fun i =>
  match single_line head false i with
  | .ok rem (.ok h) =>
    match seq2 (many0P (terminatedP P lineEndingP)) (seq2 (tagP [46]) lineEndingP) rem with
    | .ok r (body, _) => .ok r (.ok ⟨h, body⟩)
    | .err => .err
    | .incomplete => .incomplete
  | .ok rem (.err h) => .ok rem (.err h)
  | .err => .err
  | .incomplete => .incomplete

/-- `parse::response::dot_stuffed`: any line except the lone `.`, returned
verbatim (no unstuffing). -/
def dot_stuffed : Parser Bytes := fun i =>
  match utf8Check notLineEndingP i with
  | .ok r line => if line = [46] then .err else .ok r line
  | .err => .err
  | .incomplete => .incomplete

/-- `parse::response::capa_tag`: `1*cchar`. -/
def capa_tag : Parser Bytes := utf8Check (takeWhile1P is_cchar)

/-- `parse::response::capability`: one alternative per known tag, each with
its own trailing line ending; the `Other` catch-all last. -/
def capability : Parser Capability :=
  altP (valueP .top (seq2 (tagNoCaseP [84, 79, 80]) lineEndingP))
  (altP (valueP .user (seq2 (tagNoCaseP [85, 83, 69, 82]) lineEndingP))
  (altP (pmap (seq2 (tagNoCaseP [83, 65, 83, 76])
        (seq2 (many0P (precededP spP param)) lineEndingP))
      (fun x => .sasl x.2.1))
  (altP (valueP .respCodes (seq2 (tagNoCaseP [82, 69, 83, 80, 45, 67, 79, 68, 69, 83]) lineEndingP))
  (altP (pmap (seq2 (tagNoCaseP [76, 79, 71, 73, 78, 45, 68, 69, 76, 65, 89])
        (seq2 spP (seq2 number (seq2 (optP (tagNoCaseP [32, 85, 83, 69, 82])) lineEndingP))))
      (fun x => .loginDelay x.2.2.1 x.2.2.2.1.isSome))
  (altP (valueP .pipelining (seq2 (tagNoCaseP [80, 73, 80, 69, 76, 73, 78, 73, 78, 71]) lineEndingP))
  (altP (pmap (seq2 (tagNoCaseP [69, 88, 80, 73, 82, 69])
        (seq2 spP (seq2 (altP (pmap number ExpirePolicy.minimumDays)
            (valueP ExpirePolicy.never (tagNoCaseP [78, 69, 86, 69, 82])))
          (seq2 (optP (tagNoCaseP [32, 85, 83, 69, 82])) lineEndingP))))
      (fun x => .expire x.2.2.1 x.2.2.2.1.isSome))
  (altP (valueP .uidl (seq2 (tagNoCaseP [85, 73, 68, 76]) lineEndingP))
  (altP (pmap (seq2 (tagNoCaseP [73, 77, 80, 76, 69, 77, 69, 78, 84, 65, 84, 73, 79, 78])
        (seq2 spP (seq2 (utf8Check notLineEndingP) lineEndingP)))
      (fun x => .implementation x.2.2.1))
  (altP (valueP .stls (seq2 (tagNoCaseP [83, 84, 76, 83]) lineEndingP))
  (altP (valueP .authRespCode
      (seq2 (tagNoCaseP [65, 85, 84, 72, 45, 82, 69, 83, 80, 45, 67, 79, 68, 69]) lineEndingP))
  (altP (valueP .lang (seq2 (tagNoCaseP [76, 65, 78, 71]) lineEndingP))
  (altP (pmap (seq2 (tagNoCaseP [85, 84, 70, 56])
        (seq2 (optP (tagNoCaseP [32, 85, 83, 69, 82])) lineEndingP))
      (fun x => .utf8 x.2.1.isSome))
  (pmap (seq2 capa_tag (seq2 (many0P (precededP spP param)) lineEndingP))
      (fun x => .other x.1 x.2.1))))))))))))))

/-- `parse::response_list_all`: response to `LIST` without a parameter. -/
def response_list_all : Parser (Response (MultiLine ScanListing) SingleLine) :=
  multi_line scan_listing

/-! ## Well-formedness predicates used by the round-trip laws -/

/-- No carriage return and no line feed (operand fits on one line). -/
def noCrLf (s : Bytes) : Bool := s.all (fun b => b != 13 && b != 10)

/-- A base64-ish initial response token: base64 characters followed by at
most two `=` padding characters, exactly the strings `parse::command::base64`
consumes in full. -/
def base64Shape (s : Bytes) : Bool :=
  s.dropWhile is_base64_char = [] || s.dropWhile is_base64_char = [61] ||
    s.dropWhile is_base64_char = [61, 61]

/-- A language tag accepted in full by the `language` grammar.  The leading
alphabetic byte is recorded separately for convenience; it is implied by the
grammar (`1*8ALPHA` first), so the conjunction does not restrict further. -/
def langShape (s : Bytes) : Bool :=
  (match s with
   | b :: _ => is_ALPHA b
   | [] => false) &&
  (match language (s ++ [13, 10]) with
   | .ok r v => r == [13, 10] && v == s
   | _ => false)

/-- Field constraints under which `Command::serialize` is inverted by
`parse::command` (see the C1 analysis). -/
def Command.wf : Command → Bool
  | .user name => noCrLf name && utf8Valid name
  | .pass password => noCrLf password && utf8Valid password
  | .stat => true
  | .listAll => true
  | .list msg => msg < 4294967296
  | .retr msg => msg < 4294967296
  | .dele msg => msg < 4294967296
  | .noop => true
  | .rset => true
  | .quit => true
  | .apop name digest =>
    name.all (fun b => b != 32) && utf8Valid name && noCrLf digest && utf8Valid digest
  | .top msg n => msg < 4294967296 && n < 4294967296
  | .uidlAll => true
  | .uidl msg => msg < 4294967296
  | .capa => true
  | .stls => true
  | .authAll => true
  | .auth mech ir =>
    !mech.isEmpty && mech.all is_auth_char &&
      (match ir with
       | none => true
       | some r => base64Shape r)
  | .utf8 => true
  | .langAll => true
  | .lang (.lang tag) => langShape tag
  | .lang .wild => true

/-- ASCII lower-casing of a byte string. -/
def lowerBytes (s : Bytes) : Bytes := s.map lowerByte

/-- The capability keywords whose grammar can consume a following parameter
list: `SASL`, `LOGIN-DELAY`, `EXPIRE`, `IMPLEMENTATION`, `UTF8` (lowercased).
An `Other` line whose tag equals one of these (case-insensitively) can be
captured by the corresponding earlier alternative, breaking the round trip. -/
def paramKeywords : List Bytes :=
  [[115, 97, 115, 108],
   [108, 111, 103, 105, 110, 45, 100, 101, 108, 97, 121],
   [101, 120, 112, 105, 114, 101],
   [105, 109, 112, 108, 101, 109, 101, 110, 116, 97, 116, 105, 111, 110],
   [117, 116, 102, 56]]

/-- Field constraints under which `Capability::to_string` is inverted by
`parse::response::capability` (see the C2 analysis). -/
def Capability.wf : Capability → Bool
  | .top => true
  | .user => true
  | .sasl ms => !ms.isEmpty && ms.all (fun m => !m.isEmpty && m.all is_VCHAR)
  | .respCodes => true
  | .loginDelay secs _ => secs < 4294967296
  | .pipelining => true
  | .expire .never _ => true
  | .expire (.minimumDays d) _ => d < 4294967296
  | .uidl => true
  | .implementation text => noCrLf text && utf8Valid text
  | .stls => true
  | .authRespCode => true
  | .utf8 _ => true
  | .lang => true
  | .other tag params =>
    !tag.isEmpty && tag.all is_cchar && !params.isEmpty &&
      params.all (fun p => !p.isEmpty && p.all is_VCHAR) &&
      !(paramKeywords.contains (lowerBytes tag))

/-! ## Auxiliary definitions used by the statements -/

/-- Wire encoding of a space-prefixed parameter list. -/
def encodeParams (ms : List Bytes) (rest : Bytes) : Bytes :=
  ms.foldr (fun m acc => 32 :: (m ++ acc)) rest

/-- A parser consumes a prefix: the remaining input is a suffix. -/
def Consumes {α : Type} (p : Parser α) : Prop :=
  ∀ i r v, p i = .ok r v → ∃ c, i = c ++ r

/-- The `-ERR` arm of `parse::response::single_line`: the generic `head`
parser followed by the line ending, wrapped in `Response.err`. -/
def errBranch (O : Type) (rem : Bytes) : PResult (Response O SingleLine) :=
  match seq2 head lineEndingP rem with
  | .ok r (h, _) => .ok r (.err h)
  | .err => .err
  | .incomplete => .incomplete

/-! ## Basic lemmas about the combinator model -/

theorem dropWhile_append_all {p : Nat → Bool} :
    ∀ {s rest : Bytes}, (∀ b ∈ s, p b = true) → (s ++ rest).dropWhile p = rest.dropWhile p := by
  intro s
  induction s with
  | nil => intro rest _; rfl
  | cons a as ih =>
    intro rest h
    have ha : p a = true := h a (by simp)
    simp only [List.cons_append, List.dropWhile_cons, ha, if_true]
    exact ih fun b hb => h b (by simp [hb])

theorem takeWhile_append_all {p : Nat → Bool} :
    ∀ {s rest : Bytes}, (∀ b ∈ s, p b = true) →
      (s ++ rest).takeWhile p = s ++ rest.takeWhile p := by
  intro s
  induction s with
  | nil => intro rest _; rfl
  | cons a as ih =>
    intro rest h
    have ha : p a = true := h a (by simp)
    simp only [List.cons_append, List.takeWhile_cons, ha, if_true]
    exact congrArg (a :: ·) (ih fun b hb => h b (by simp [hb]))

theorem dropWhile_stop {p : Nat → Bool} {b : Nat} {t : Bytes} (hb : p b = false) :
    (b :: t).dropWhile p = b :: t := by
  simp [List.dropWhile_cons, hb]

theorem takeWhile_stop {p : Nat → Bool} {b : Nat} {t : Bytes} (hb : p b = false) :
    (b :: t).takeWhile p = [] := by
  simp [List.takeWhile_cons, hb]

/-- `take_while` on a run that ends at a failing byte. -/
theorem takeWhileP_exact {p : Nat → Bool} {s : Bytes} {b : Nat} {t : Bytes}
    (hs : ∀ x ∈ s, p x = true) (hb : p b = false) :
    takeWhileP p (s ++ b :: t) = .ok (b :: t) s := by
  unfold takeWhileP
  rw [dropWhile_append_all hs, takeWhile_append_all hs, dropWhile_stop hb, takeWhile_stop hb,
    List.append_nil]

/-- `take_while1` on a nonempty run that ends at a failing byte. -/
theorem takeWhile1P_exact {p : Nat → Bool} {s : Bytes} {b : Nat} {t : Bytes}
    (hs : ∀ x ∈ s, p x = true) (hne : s ≠ []) (hb : p b = false) :
    takeWhile1P p (s ++ b :: t) = .ok (b :: t) s := by
  unfold takeWhile1P
  rw [dropWhile_append_all hs, takeWhile_append_all hs, dropWhile_stop hb, takeWhile_stop hb,
    List.append_nil]
  simp [hne]

/-- `not_line_ending` on a CR/LF-free line followed by CRLF. -/
theorem notLineEndingP_crlf {s rest : Bytes} (hs : ∀ b ∈ s, b ≠ 13 ∧ b ≠ 10) :
    notLineEndingP (s ++ 13 :: 10 :: rest) = .ok (13 :: 10 :: rest) s := by
  have hall : ∀ b ∈ s, (b != 13 && b != 10) = true := by
    intro b hb
    have := hs b hb
    simp [this.1, this.2]
  unfold notLineEndingP
  rw [dropWhile_append_all hall, takeWhile_append_all hall, dropWhile_stop (by simp),
    takeWhile_stop (by simp), List.append_nil]

/-- ASCII byte sequences are valid UTF-8. -/
theorem utf8Valid_of_ascii : ∀ {s : Bytes}, (∀ b ∈ s, b ≤ 127) → utf8Valid s = true := by
  intro s
  induction s with
  | nil => intro _; rfl
  | cons a as ih =>
    intro h
    have ha : a ≤ 127 := h a (by simp)
    unfold utf8Valid at ih ⊢
    rw [utf8Run, if_pos ha]
    exact ih fun b hb => h b (by simp [hb])

theorem utf8Check_of_valid {p : Parser Bytes} {i rem v : Bytes} (hp : p i = .ok rem v)
    (hv : utf8Valid v = true) : utf8Check p i = .ok rem v := by
  unfold utf8Check
  rw [hp]
  simp [hv]

/-! ## Decimal numerals -/

theorem natDecimal_all_digits : ∀ n, ∀ b ∈ natDecimal n, is_digit b = true := by
  intro n
  induction n using Nat.strong_induction_on with
  | _ n ih =>
    unfold natDecimal
    by_cases h : n < 10
    · rw [dif_pos h]
      intro b hb
      simp only [List.mem_singleton] at hb
      subst hb
      simp only [is_digit, Bool.and_eq_true, decide_eq_true_eq]
      omega
    · rw [dif_neg h]
      intro b hb
      rcases List.mem_append.mp hb with h1 | h1
      · exact ih (n / 10) (Nat.div_lt_self (by omega) (by omega)) b h1
      · simp only [List.mem_singleton] at h1
        subst h1
        have := Nat.mod_lt n (y := 10) (by omega)
        simp only [is_digit, Bool.and_eq_true, decide_eq_true_eq]
        omega

theorem natDecimal_ne_nil (n : Nat) : natDecimal n ≠ [] := by
  unfold natDecimal
  by_cases h : n < 10
  · rw [dif_pos h]; simp
  · rw [dif_neg h]; simp

theorem decVal_append_one (xs : Bytes) (d : Nat) :
    decVal (xs ++ [d]) = 10 * decVal xs + (d - 48) := by
  simp [decVal, List.foldl_append]
  ring

theorem decVal_natDecimal : ∀ n, decVal (natDecimal n) = n := by
  intro n
  induction n using Nat.strong_induction_on with
  | _ n ih =>
    unfold natDecimal
    by_cases h : n < 10
    · rw [dif_pos h]
      simp [decVal]
    · rw [dif_neg h]
      rw [decVal_append_one, ih (n / 10) (Nat.div_lt_self (by omega) (by omega))]
      omega

/-- `number` on a maximal digit run followed by a non-digit byte. -/
theorem number_run {ds : Bytes} {b : Nat} {t : Bytes} (hds : ∀ x ∈ ds, is_digit x = true)
    (hne : ds ≠ []) (hb : is_digit b = false) :
    number (ds ++ b :: t) =
      if decVal ds < 4294967296 then .ok (b :: t) (decVal ds) else .err := by
  have hascii : ∀ x ∈ ds, x ≤ 127 := by
    intro x hx
    have := hds x hx
    simp only [is_digit, Bool.and_eq_true, decide_eq_true_eq] at this
    omega
  unfold number
  rw [utf8Check_of_valid (takeWhile1P_exact hds hne hb) (utf8Valid_of_ascii hascii)]

/-- `number` on a serialized `u32` followed by a non-digit byte. -/
theorem number_natDecimal {n : Nat} {b : Nat} {t : Bytes} (hn : n < 4294967296)
    (hb : is_digit b = false) : number (natDecimal n ++ b :: t) = .ok (b :: t) n := by
  rw [number_run (natDecimal_all_digits n) (natDecimal_ne_nil n) hb, decVal_natDecimal]
  simp [hn]

/-! ## Round-trip machinery for the command grammar -/

theorem is_base64_char_le {b : Nat} (h : is_base64_char b = true) : b ≤ 127 := by
  simp only [is_base64_char, is_ALPHA, is_digit, Bool.or_eq_true, Bool.and_eq_true,
    decide_eq_true_eq, beq_iff_eq] at h
  omega

theorem take_len_append (l1 l2 : Bytes) :
    (l1 ++ l2).take ((l1 ++ l2).length - l2.length) = l1 := by
  rw [show (l1 ++ l2).length - l2.length = l1.length from by simp]
  exact List.take_left _ _

theorem base64_pad (tw pad : Bytes) (hall : ∀ x ∈ tw, is_base64_char x = true)
    (hpad : pad = [] ∨ pad = [61] ∨ pad = [61, 61]) :
    base64 ((tw ++ pad) ++ [13, 10]) = .ok [13, 10] (tw ++ pad) := by
  have hu : utf8Valid (tw ++ pad) = true := by
    refine utf8Valid_of_ascii ?_
    intro b hb
    rcases List.mem_append.mp hb with h1 | h1
    · exact is_base64_char_le (hall b h1)
    · rcases hpad with h | h | h <;> rw [h] at h1 <;> simp only [List.mem_singleton,
        List.mem_cons, List.not_mem_nil, or_false] at h1 <;> omega
  have h1 : takeWhileP is_base64_char (tw ++ (pad ++ [13, 10])) =
      .ok (pad ++ [13, 10]) tw := by
    rcases hpad with h | h | h <;> rw [h] <;> simp only [List.nil_append, List.cons_append] <;>
      exact takeWhileP_exact hall (by decide)
  have h2 : optP (altP (tagP [61, 61]) (tagP [61])) (pad ++ [13, 10]) =
      .ok [13, 10] (if pad = [] then none else some pad) := by
    rcases hpad with h | h | h <;> rw [h] <;> decide
  have h3 : seq2 (takeWhileP is_base64_char) (optP (altP (tagP [61, 61]) (tagP [61])))
      ((tw ++ pad) ++ [13, 10]) = .ok [13, 10] (tw, (if pad = [] then none else some pad)) := by
    rw [List.append_assoc]
    simp [seq2, h1, h2]
  have h4 : recognizeP (seq2 (takeWhileP is_base64_char)
      (optP (altP (tagP [61, 61]) (tagP [61])))) ((tw ++ pad) ++ [13, 10]) =
      .ok [13, 10] (tw ++ pad) := by
    unfold recognizeP
    simp only [h3]
    congr 1
    exact take_len_append (tw ++ pad) [13, 10]
  unfold base64
  exact utf8Check_of_valid h4 hu

/-- `base64` consumes exactly a token of `base64Shape` when a CRLF follows. -/
theorem base64_exact {ir : Bytes} (h : base64Shape ir = true) :
    base64 (ir ++ [13, 10]) = .ok [13, 10] ir := by
  have hall : ∀ x ∈ ir.takeWhile is_base64_char, is_base64_char x = true :=
    fun x hx => List.mem_takeWhile_imp hx
  simp only [base64Shape, Bool.or_eq_true, decide_eq_true_eq] at h
  have hpad : ir.dropWhile is_base64_char = [] ∨ ir.dropWhile is_base64_char = [61] ∨
      ir.dropWhile is_base64_char = [61, 61] := by tauto
  rw [show ir = ir.takeWhile is_base64_char ++ ir.dropWhile is_base64_char from
    (List.takeWhile_append_dropWhile (p := is_base64_char) (l := ir)).symm]
  exact base64_pad _ _ hall hpad


theorem noCrLf_forall {s : Bytes} (h : noCrLf s = true) : ∀ b ∈ s, b ≠ 13 ∧ b ≠ 10 := by
  simp only [noCrLf, List.all_eq_true, Bool.and_eq_true, bne_iff_ne] at h
  exact h

theorem is_auth_char_le {b : Nat} (h : is_auth_char b = true) : b ≤ 127 := by
  simp only [is_auth_char, is_ALPHA, is_digit, Bool.or_eq_true, Bool.and_eq_true,
    decide_eq_true_eq, beq_iff_eq] at h
  omega

/-- Round-trip: `parse(serialize(c)) = (empty, c)` for well-formed commands. -/
theorem command_roundtrip (c : Command) (h : c.wf = true) :
    command c.serialize = .ok [] c := by
  cases c with
  | stat => decide
  | listAll => decide
  | noop => decide
  | rset => decide
  | quit => decide
  | uidlAll => decide
  | capa => decide
  | stls => decide
  | authAll => decide
  | utf8 => decide
  | langAll => decide
  | user name =>
    simp only [Command.wf, Bool.and_eq_true] at h
    have hnle := utf8Check_of_valid (@notLineEndingP_crlf _ [] (noCrLf_forall h.1)) h.2
    simp [command, terminatedP, altP, pmap, seq2, valueP, user, tagNoCaseP, tagP, cmpBytes, lowerByte,
      lineEndingP, Command.serialize, hnle]
  | pass password =>
    simp only [Command.wf, Bool.and_eq_true] at h
    have hnle := utf8Check_of_valid (@notLineEndingP_crlf _ [] (noCrLf_forall h.1)) h.2
    simp [command, terminatedP, altP, pmap, seq2, valueP, user, pass, tagNoCaseP, tagP, cmpBytes,
      lowerByte, lineEndingP, Command.serialize, hnle]
  | list msg =>
    simp only [Command.wf, decide_eq_true_eq] at h
    have hnum : number (natDecimal msg ++ [13, 10]) = .ok [13, 10] msg :=
      number_natDecimal h (by decide)
    simp [command, terminatedP, altP, pmap, seq2, valueP, optP, user, pass, apop, stls, capa, quit,
      stat, list, tagNoCaseP, tagP, cmpBytes, lowerByte, lineEndingP, Command.serialize, hnum]
  | retr msg =>
    simp only [Command.wf, decide_eq_true_eq] at h
    have hnum : number (natDecimal msg ++ [13, 10]) = .ok [13, 10] msg :=
      number_natDecimal h (by decide)
    simp [command, terminatedP, altP, pmap, seq2, valueP, optP, user, pass, apop, stls, capa, quit,
      stat, list, retr, tagNoCaseP, tagP, cmpBytes, lowerByte, lineEndingP, Command.serialize,
      hnum]
  | dele msg =>
    simp only [Command.wf, decide_eq_true_eq] at h
    have hnum : number (natDecimal msg ++ [13, 10]) = .ok [13, 10] msg :=
      number_natDecimal h (by decide)
    simp [command, terminatedP, altP, pmap, seq2, valueP, optP, user, pass, apop, stls, capa, quit,
      stat, list, retr, dele, tagNoCaseP, tagP, cmpBytes, lowerByte, lineEndingP,
      Command.serialize, hnum]
  | uidl msg =>
    simp only [Command.wf, decide_eq_true_eq] at h
    have hnum : number (natDecimal msg ++ [13, 10]) = .ok [13, 10] msg :=
      number_natDecimal h (by decide)
    simp [command, terminatedP, altP, pmap, seq2, valueP, optP, precededP, user, pass, apop, stls, capa,
      quit, stat, list, retr, dele, noop, rset, top, uidl, tagNoCaseP, tagP, cmpBytes, lowerByte,
      lineEndingP, Command.serialize, hnum]
  | top msg n =>
    simp only [Command.wf, Bool.and_eq_true, decide_eq_true_eq] at h
    have hnum1 : number (natDecimal msg ++ 32 :: (natDecimal n ++ [13, 10])) =
        .ok (32 :: (natDecimal n ++ [13, 10])) msg := number_natDecimal h.1 (by decide)
    have hnum2 : number (natDecimal n ++ [13, 10]) = .ok [13, 10] n :=
      number_natDecimal h.2 (by decide)
    simp [command, terminatedP, altP, pmap, seq2, valueP, optP, user, pass, apop, stls, capa, quit,
      stat, list, retr, dele, noop, rset, top, tagNoCaseP, tagP, cmpBytes, lowerByte,
      lineEndingP, Command.serialize, hnum1, hnum2]
  | apop name digest =>
    simp only [Command.wf, Bool.and_eq_true] at h
    obtain ⟨⟨⟨hn32, hnu⟩, hdc⟩, hdu⟩ := h
    have hname : utf8Check (takeWhileP (fun b => b != 32)) (name ++ 32 :: (digest ++ [13, 10])) =
        .ok (32 :: (digest ++ [13, 10])) name := by
      refine utf8Check_of_valid (takeWhileP_exact ?_ (by decide)) hnu
      intro x hx
      exact List.all_eq_true.mp hn32 x hx
    have hdig := utf8Check_of_valid (@notLineEndingP_crlf _ [] (noCrLf_forall hdc)) hdu
    simp [command, terminatedP, altP, pmap, seq2, valueP, user, pass, apop, tagNoCaseP, tagP, cmpBytes,
      lowerByte, lineEndingP, Command.serialize, hname, hdig]
  | auth mech ir =>
    simp only [Command.wf, Bool.and_eq_true] at h
    obtain ⟨⟨hne, hac⟩, hir⟩ := h
    have hmu : utf8Valid mech = true := by
      refine utf8Valid_of_ascii ?_
      intro b hb
      exact is_auth_char_le (List.all_eq_true.mp hac b hb)
    have hmne : mech ≠ [] := by
      cases mech
      · simp at hne
      · simp
    cases ir with
    | none =>
      have hmech : utf8Check (takeWhile1P is_auth_char) (mech ++ [13, 10]) =
          .ok [13, 10] mech := by
        refine utf8Check_of_valid (takeWhile1P_exact ?_ hmne (by decide)) hmu
        intro x hx
        exact List.all_eq_true.mp hac x hx
      simp [command, terminatedP, altP, pmap, seq2, valueP, optP, user, pass, apop, stls, capa, quit,
        stat, list, retr, dele, noop, rset, top, uidl, auth, auth_type, tagNoCaseP, tagP,
        cmpBytes, lowerByte, lineEndingP, Command.serialize, hmech]
    | some r =>
      have hmech : utf8Check (takeWhile1P is_auth_char) (mech ++ 32 :: (r ++ [13, 10])) =
          .ok (32 :: (r ++ [13, 10])) mech := by
        refine utf8Check_of_valid (takeWhile1P_exact ?_ hmne (by decide)) hmu
        intro x hx
        exact List.all_eq_true.mp hac x hx
      have hb64 : base64 (r ++ [13, 10]) = .ok [13, 10] r := base64_exact hir
      simp [command, terminatedP, altP, pmap, seq2, valueP, optP, user, pass, apop, stls, capa, quit,
        stat, list, retr, dele, noop, rset, top, uidl, auth, auth_type, tagNoCaseP, tagP,
        cmpBytes, lowerByte, lineEndingP, Command.serialize, hmech, hb64]
  | lang l =>
    cases l with
    | wild => decide
    | lang tag =>
      simp only [Command.wf, langShape] at h
      rw [Bool.and_eq_true] at h
      obtain ⟨hhead, hlang⟩ := h
      have hlang2 : language (tag ++ [13, 10]) = .ok [13, 10] tag := by
        cases hcase : language (tag ++ [13, 10]) with
        | ok rr vv =>
          rw [hcase] at hlang
          simp only [Bool.and_eq_true, beq_iff_eq] at hlang
          rw [hlang.1, hlang.2]
        | err => rw [hcase] at hlang; simp at hlang
        | incomplete => rw [hcase] at hlang; simp at hlang
      cases tag with
      | nil => simp at hhead
      | cons b t =>
        have hb42 : ¬(b = 42) := by
          simp only [is_ALPHA, Bool.or_eq_true, Bool.and_eq_true, decide_eq_true_eq] at hhead
          omega
        have hlang3 : language (b :: (t ++ [13, 10])) = .ok [13, 10] (b :: t) := by
          simpa using hlang2
        simp [command, terminatedP, altP, pmap, seq2, valueP, optP, precededP, user, pass,
          apop, stls, capa, quit, stat, list, retr, dele, noop, rset, top, uidl, auth, utf8,
          lang, lang_or_wild, tagNoCaseP, tagP, cmpBytes, lowerByte, lineEndingP,
          Command.serialize, Language.toBytes, hlang3, hb42]


/-! ## Round-trip machinery for the capability grammar -/

theorem joinSp_encode (m : Bytes) (ms : List Bytes) (rest : Bytes) :
    32 :: (joinSp (m :: ms) ++ rest) = encodeParams (m :: ms) rest := by
  induction ms generalizing m with
  | nil => simp [joinSp, encodeParams]
  | cons m2 ms2 ih =>
    simp only [joinSp, encodeParams, List.foldr_cons, List.cons_append, List.append_assoc]
    have := ih m2
    simp only [encodeParams, List.foldr_cons] at this
    rw [← this]

theorem is_VCHAR_le {b : Nat} (h : is_VCHAR b = true) : b ≤ 127 := by
  simp only [is_VCHAR, Bool.and_eq_true, decide_eq_true_eq] at h
  omega

theorem is_VCHAR_ne32 {b : Nat} (h : is_VCHAR b = true) : ¬(b = 32) := by
  simp only [is_VCHAR, Bool.and_eq_true, decide_eq_true_eq] at h
  omega

/-- `many0(preceded(SP, param))` consumes an encoded parameter list exactly,
stopping at a byte that is neither a space nor a VCHAR run start. -/
theorem many0_params_aux (ms : List Bytes) (b : Nat) (t : Bytes)
    (hms : ∀ m ∈ ms, m ≠ [] ∧ ∀ x ∈ m, is_VCHAR x = true)
    (hb32 : ¬(b = 32)) (hbv : is_VCHAR b = false) :
    ∀ fuel, (encodeParams ms (b :: t)).length < fuel →
      many0Aux (precededP spP param) fuel (encodeParams ms (b :: t)) = .ok (b :: t) ms := by
  induction ms with
  | nil =>
    intro fuel hf
    match fuel, hf with
    | fuel + 1, _ =>
      simp [many0Aux, encodeParams, precededP, pmap, seq2, spP, hb32]
  | cons m ms2 ih =>
    intro fuel hf
    obtain ⟨hmne, hmv⟩ := hms m (by simp)
    have hstep : precededP spP param (encodeParams (m :: ms2) (b :: t)) =
        .ok (encodeParams ms2 (b :: t)) m := by
      have hpar : param (m ++ encodeParams ms2 (b :: t)) = .ok (encodeParams ms2 (b :: t)) m := by
        have hnext : ∃ c t2, encodeParams ms2 (b :: t) = c :: t2 ∧ is_VCHAR c = false := by
          cases ms2 with
          | nil => exact ⟨b, t, rfl, hbv⟩
          | cons m2 ms3 => exact ⟨32, _, rfl, by decide⟩
        obtain ⟨c, t2, hct, hcf⟩ := hnext
        rw [hct]
        refine utf8Check_of_valid (takeWhile1P_exact hmv hmne hcf)
          (utf8Valid_of_ascii fun x hx => is_VCHAR_le (hmv x hx))
      rw [show encodeParams (m :: ms2) (b :: t) = 32 :: (m ++ encodeParams ms2 (b :: t)) from rfl]
      simp [precededP, pmap, seq2, spP, hpar]
    match fuel, hf with
    | fuel + 1, hf =>
      have hlt : (encodeParams ms2 (b :: t)).length <
          (encodeParams (m :: ms2) (b :: t)).length := by
        simp only [encodeParams, List.foldr_cons, List.length_cons, List.length_append]
        omega
      rw [many0Aux]
      simp only [hstep]
      rw [if_neg (by omega)]
      rw [ih (fun m hm => hms m (by simp [hm])) fuel (by omega)]
  

theorem is_cchar_range {b : Nat} (h : is_cchar b = true) : 33 ≤ b ∧ b ≤ 127 := by
  simp only [is_cchar, Bool.or_eq_true, Bool.and_eq_true, decide_eq_true_eq] at h
  omega

theorem lowerByte_of_ge33 {c : Nat} (h : 33 ≤ c) : 33 ≤ lowerByte c := by
  simp only [lowerByte]
  split <;> omega

theorem drop_append_le {l1 l2 : Bytes} {n : Nat} (h : n ≤ l1.length) :
    (l1 ++ l2).drop n = l1.drop n ++ l2 := by
  induction l1 generalizing n with
  | nil =>
    simp only [List.length_nil, Nat.le_zero] at h
    subst h
    simp
  | cons a l1' ih =>
    cases n with
    | zero => simp
    | succ n' =>
      simp only [List.length_cons, Nat.succ_le_succ_iff] at h
      simp only [List.cons_append, List.drop_succ_cons]
      exact ih h

/-- Case-insensitive comparison of a capability keyword against a cchar tag
followed by a space: either a mismatch, or the keyword is a prefix of the
tag (case-insensitively). -/
theorem cmp_capa_split (kw : Bytes) (hkw : ∀ b ∈ kw, 33 ≤ lowerByte b ∧ lowerByte b ≤ 126) :
    ∀ (tag : Bytes), (∀ b ∈ tag, is_cchar b = true) → ∀ (s : Bytes),
      cmpBytes true (tag ++ 32 :: s) kw = .error ∨
        (cmpBytes true (tag ++ 32 :: s) kw = .ok ∧ kw.length ≤ tag.length ∧
          lowerBytes (tag.take kw.length) = lowerBytes kw) := by
  induction kw with
  | nil =>
    intro tag _ s
    right
    refine ⟨?_, Nat.zero_le _, by simp [lowerBytes]⟩
    cases tag ++ 32 :: s <;> rfl
  | cons k kw' ih =>
    intro tag htag s
    have hk := hkw k (by simp)
    cases tag with
    | nil =>
      left
      have : ¬(lowerByte 32 = lowerByte k) := by
        rw [show lowerByte 32 = 32 from by decide]
        omega
      simp [cmpBytes, this]
    | cons a tag' =>
      have ha := is_cchar_range (htag a (by simp))
      by_cases hc : lowerByte a = lowerByte k
      · have := ih (fun b hb => hkw b (by simp [hb])) tag'
          (fun b hb => htag b (by simp [hb])) s
        rcases this with h1 | ⟨h1, h2, h3⟩
        · left
          simp [cmpBytes, hc, h1]
        · right
          refine ⟨by simp [cmpBytes, hc, h1], by simpa using h2, ?_⟩
          simp only [lowerBytes] at h3
          simp only [List.length_cons, List.take_succ_cons, lowerBytes, List.map_cons]
          rw [hc]
          exact congrArg _ h3
      · left
        simp [cmpBytes, hc]

/-- `tag_no_case(kw)` on a cchar tag followed by a space: mismatch, or the
keyword is consumed from within the tag. -/
theorem tagNoCase_capa_split (kw : Bytes)
    (hkw : ∀ b ∈ kw, 33 ≤ lowerByte b ∧ lowerByte b ≤ 126)
    (tag : Bytes) (htag : ∀ b ∈ tag, is_cchar b = true) (s : Bytes) :
    tagNoCaseP kw (tag ++ 32 :: s) = .err ∨
      (kw.length ≤ tag.length ∧ lowerBytes (tag.take kw.length) = lowerBytes kw ∧
        ∃ v, tagNoCaseP kw (tag ++ 32 :: s) = .ok (tag.drop kw.length ++ 32 :: s) v) := by
  rcases cmp_capa_split kw hkw tag htag s with h1 | ⟨h1, h2, h3⟩
  · left
    simp [tagNoCaseP, h1]
  · right
    refine ⟨h2, h3, (tag ++ 32 :: s).take kw.length, ?_⟩
    simp only [tagNoCaseP, h1]
    rw [drop_append_le h2]

/-- A capability alternative headed by `tag_no_case(kw)` fails on a generic
`tag SP params` line when its continuation fails on any space- or
cchar-headed remainder. -/
theorem capa_branch_err {β γ : Type} (kw : Bytes) (Q : Parser γ) (f : Bytes × γ → β)
    (hkw : ∀ b ∈ kw, 33 ≤ lowerByte b ∧ lowerByte b ≤ 126)
    (tag : Bytes) (htag : ∀ b ∈ tag, is_cchar b = true) (s : Bytes)
    (hQ : ∀ c t, (c = 32 ∨ is_cchar c = true) → Q (c :: t) = .err) :
    pmap (seq2 (tagNoCaseP kw) Q) f (tag ++ 32 :: s) = .err := by
  rcases tagNoCase_capa_split kw hkw tag htag s with h1 | ⟨h2, _, v, h4⟩
  · simp [pmap, seq2, h1]
  · simp only [pmap, seq2, h4]
    cases hdrop : tag.drop kw.length with
    | nil =>
      simp [hQ 32 s (Or.inl rfl)]
    | cons c t' =>
      have hc : is_cchar c = true := by
        refine htag c (List.mem_of_mem_drop (n := kw.length) ?_)
        rw [hdrop]
        simp
      simp [hQ c (t' ++ 32 :: s) (Or.inr hc)]

/-- Like `capa_branch_err` for alternatives whose continuation may accept a
space-headed remainder (the parameterized capability keywords): the tag must
then differ from the keyword. -/
theorem capa_branch_err2 {β γ : Type} (kw : Bytes) (Q : Parser γ) (f : Bytes × γ → β)
    (hkw : ∀ b ∈ kw, 33 ≤ lowerByte b ∧ lowerByte b ≤ 126)
    (tag : Bytes) (htag : ∀ b ∈ tag, is_cchar b = true) (s : Bytes)
    (hQ : ∀ c t, is_cchar c = true → Q (c :: t) = .err)
    (hne : ¬(lowerBytes tag = lowerBytes kw)) :
    pmap (seq2 (tagNoCaseP kw) Q) f (tag ++ 32 :: s) = .err := by
  rcases tagNoCase_capa_split kw hkw tag htag s with h1 | ⟨h2, h3, v, h4⟩
  · simp [pmap, seq2, h1]
  · simp only [pmap, seq2, h4]
    cases hdrop : tag.drop kw.length with
    | nil =>
      exfalso
      have : kw.length = tag.length := by
        have := congrArg List.length hdrop
        simp only [List.length_drop, List.length_nil] at this
        omega
      rw [this, List.take_length] at h3
      exact hne h3
    | cons c t' =>
      have hc : is_cchar c = true := by
        refine htag c (List.mem_of_mem_drop (n := kw.length) ?_)
        rw [hdrop]
        simp
      simp [hQ c (t' ++ 32 :: s) hc]


theorem hQ_lineEnding : ∀ c t, (c = 32 ∨ is_cchar c = true) → lineEndingP (c :: t) = .err := by
  intro c t hc
  have : ¬(c = 10) ∧ ¬(c = 13) := by
    rcases hc with h | h
    · omega
    · have := is_cchar_range h
      omega
  simp [lineEndingP, this.1, this.2]

theorem hQ_spHead {γ : Type} (Q2 : Parser γ) :
    ∀ c t, is_cchar c = true → seq2 spP Q2 (c :: t) = .err := by
  intro c t hc
  have h32 : ¬(c = 32) := by
    have := is_cchar_range hc
    omega
  simp [seq2, spP, h32]

theorem hQ_saslTail :
    ∀ c t, is_cchar c = true → seq2 (many0P (precededP spP param)) lineEndingP (c :: t) = .err := by
  intro c t hc
  have h32 : ¬(c = 32) := by
    have := is_cchar_range hc
    omega
  have hm : many0P (precededP spP param) (c :: t) = .ok (c :: t) [] := by
    simp [many0P, many0Aux, precededP, pmap, seq2, spP, h32]
  simp [seq2, hm, hQ_lineEnding c t (Or.inr hc)]

theorem hQ_utf8Tail :
    ∀ c t, is_cchar c = true →
      seq2 (optP (tagNoCaseP [32, 85, 83, 69, 82])) lineEndingP (c :: t) = .err := by
  intro c t hc
  have h1 := is_cchar_range hc
  have hlc : ¬(lowerByte c = lowerByte 32) := by
    rw [show lowerByte 32 = 32 from by decide]
    have := lowerByte_of_ge33 h1.1
    omega
  simp [seq2, optP, tagNoCaseP, cmpBytes, hlc, hQ_lineEnding c t (Or.inr hc)]

/-- Round-trip: parsing `to_string(k) + CRLF` returns `k` for well-formed
capabilities. -/
theorem capability_roundtrip (k : Capability) (h : k.wf = true) :
    capability (k.toBytes ++ [13, 10]) = .ok [] k := by
  cases k with
  | top => decide
  | user => decide
  | respCodes => decide
  | pipelining => decide
  | uidl => decide
  | stls => decide
  | authRespCode => decide
  | lang => decide
  | utf8 inCred => cases inCred <;> decide
  | sasl ms =>
    simp only [Capability.wf, Bool.and_eq_true, Bool.not_eq_true'] at h
    obtain ⟨hne, hall⟩ := h
    cases ms with
    | nil => simp at hne
    | cons m ms2 =>
      have hmv : ∀ x ∈ m :: ms2, x ≠ [] ∧ ∀ b ∈ x, is_VCHAR b = true := by
        intro x hx
        have := List.all_eq_true.mp hall x hx
        simp only [Bool.and_eq_true, Bool.not_eq_true'] at this
        refine ⟨by simpa using this.1, List.all_eq_true.mp this.2⟩
      have hmany : many0P (precededP spP param) (32 :: (joinSp (m :: ms2) ++ [13, 10])) =
          .ok [13, 10] (m :: ms2) := by
        rw [joinSp_encode]
        unfold many0P
        exact many0_params_aux (m :: ms2) 13 [10] hmv (by omega) (by decide) _ (Nat.lt_succ_self _)
      simp [capability, altP, valueP, pmap, seq2, tagNoCaseP, tagP, cmpBytes, lowerByte,
        lineEndingP, Capability.toBytes, hmany]
  | loginDelay secs pu =>
    simp only [Capability.wf, decide_eq_true_eq] at h
    cases pu with
    | false =>
      have hnum : number (natDecimal secs ++ [13, 10]) = .ok [13, 10] secs :=
        number_natDecimal h (by decide)
      simp [capability, altP, valueP, pmap, seq2, optP, spP, tagNoCaseP, tagP, cmpBytes,
        lowerByte, lineEndingP, Capability.toBytes, hnum]
    | true =>
      have hnum : number (natDecimal secs ++ 32 :: [85, 83, 69, 82, 13, 10]) =
          .ok (32 :: [85, 83, 69, 82, 13, 10]) secs := number_natDecimal h (by decide)
      simp [capability, altP, valueP, pmap, seq2, optP, spP, tagNoCaseP, tagP, cmpBytes,
        lowerByte, lineEndingP, Capability.toBytes, hnum]
  | expire policy pu =>
    cases policy with
    | never => cases pu <;> decide
    | minimumDays d =>
      simp only [Capability.wf, decide_eq_true_eq] at h
      cases pu with
      | false =>
        have hnum : number (natDecimal d ++ [13, 10]) = .ok [13, 10] d :=
          number_natDecimal h (by decide)
        simp [capability, altP, valueP, pmap, seq2, optP, spP, tagNoCaseP, tagP, cmpBytes,
          lowerByte, lineEndingP, Capability.toBytes, ExpirePolicy.toBytes, hnum]
      | true =>
        have hnum : number (natDecimal d ++ 32 :: [85, 83, 69, 82, 13, 10]) =
            .ok (32 :: [85, 83, 69, 82, 13, 10]) d := number_natDecimal h (by decide)
        simp [capability, altP, valueP, pmap, seq2, optP, spP, tagNoCaseP, tagP, cmpBytes,
          lowerByte, lineEndingP, Capability.toBytes, ExpirePolicy.toBytes, hnum]
  | implementation text =>
    simp only [Capability.wf, Bool.and_eq_true] at h
    have hnle := utf8Check_of_valid (@notLineEndingP_crlf _ [] (noCrLf_forall h.1)) h.2
    simp [capability, altP, valueP, pmap, seq2, spP, tagNoCaseP, tagP, cmpBytes, lowerByte,
      lineEndingP, Capability.toBytes, hnle]
  | other tag params =>
    simp only [Capability.wf, Bool.and_eq_true, Bool.not_eq_true'] at h
    obtain ⟨⟨⟨⟨htne, htc⟩, hpne⟩, hpv⟩, hkwc⟩ := h
    have htag : ∀ b ∈ tag, is_cchar b = true := List.all_eq_true.mp htc
    have htagne : tag ≠ [] := by
      cases tag
      · simp at htne
      · simp
    have hne1 : ¬(lowerBytes tag = [115, 97, 115, 108]) := by
      intro he
      rw [he] at hkwc
      exact absurd hkwc (by decide)
    have hne2 : ¬(lowerBytes tag = [108, 111, 103, 105, 110, 45, 100, 101, 108, 97, 121]) := by
      intro he
      rw [he] at hkwc
      exact absurd hkwc (by decide)
    have hne3 : ¬(lowerBytes tag = [101, 120, 112, 105, 114, 101]) := by
      intro he
      rw [he] at hkwc
      exact absurd hkwc (by decide)
    have hne4 : ¬(lowerBytes tag =
        [105, 109, 112, 108, 101, 109, 101, 110, 116, 97, 116, 105, 111, 110]) := by
      intro he
      rw [he] at hkwc
      exact absurd hkwc (by decide)
    have hne5 : ¬(lowerBytes tag = [117, 116, 102, 56]) := by
      intro he
      rw [he] at hkwc
      exact absurd hkwc (by decide)
    cases params with
    | nil => simp at hpne
    | cons p1 ps =>
      have hpv2 : ∀ x ∈ p1 :: ps, x ≠ [] ∧ ∀ b ∈ x, is_VCHAR b = true := by
        intro x hx
        have := List.all_eq_true.mp hpv x hx
        simp only [Bool.and_eq_true, Bool.not_eq_true'] at this
        refine ⟨by simpa using this.1, List.all_eq_true.mp this.2⟩
      have hb1 := capa_branch_err [84, 79, 80] lineEndingP
        (fun _ => Capability.top) (by decide) tag htag (joinSp (p1 :: ps) ++ [13, 10]) hQ_lineEnding
      have hb2 := capa_branch_err [85, 83, 69, 82] lineEndingP
        (fun _ => Capability.user) (by decide) tag htag (joinSp (p1 :: ps) ++ [13, 10])
        hQ_lineEnding
      have hb3 := capa_branch_err2 [83, 65, 83, 76]
        (seq2 (many0P (precededP spP param)) lineEndingP)
        (fun x => Capability.sasl x.2.1) (by decide) tag htag (joinSp (p1 :: ps) ++ [13, 10])
        hQ_saslTail hne1
      have hb4 := capa_branch_err [82, 69, 83, 80, 45, 67, 79, 68, 69, 83] lineEndingP
        (fun _ => Capability.respCodes) (by decide) tag htag (joinSp (p1 :: ps) ++ [13, 10])
        hQ_lineEnding
      have hb5 := capa_branch_err2 [76, 79, 71, 73, 78, 45, 68, 69, 76, 65, 89]
        (seq2 spP (seq2 number (seq2 (optP (tagNoCaseP [32, 85, 83, 69, 82])) lineEndingP)))
        (fun x => Capability.loginDelay x.2.2.1 x.2.2.2.1.isSome) (by decide) tag htag
        (joinSp (p1 :: ps) ++ [13, 10]) (hQ_spHead _) hne2
      have hb6 := capa_branch_err [80, 73, 80, 69, 76, 73, 78, 73, 78, 71] lineEndingP
        (fun _ => Capability.pipelining) (by decide) tag htag (joinSp (p1 :: ps) ++ [13, 10])
        hQ_lineEnding
      have hb7 := capa_branch_err2 [69, 88, 80, 73, 82, 69]
        (seq2 spP (seq2 (altP (pmap number ExpirePolicy.minimumDays)
            (pmap (tagNoCaseP [78, 69, 86, 69, 82]) (fun _ => ExpirePolicy.never)))
          (seq2 (optP (tagNoCaseP [32, 85, 83, 69, 82])) lineEndingP)))
        (fun x => Capability.expire x.2.2.1 x.2.2.2.1.isSome) (by decide) tag htag
        (joinSp (p1 :: ps) ++ [13, 10]) (hQ_spHead _) hne3
      have hb8 := capa_branch_err [85, 73, 68, 76] lineEndingP
        (fun _ => Capability.uidl) (by decide) tag htag (joinSp (p1 :: ps) ++ [13, 10])
        hQ_lineEnding
      have hb9 := capa_branch_err2 [73, 77, 80, 76, 69, 77, 69, 78, 84, 65, 84, 73, 79, 78]
        (seq2 spP (seq2 (utf8Check notLineEndingP) lineEndingP))
        (fun x => Capability.implementation x.2.2.1) (by decide) tag htag
        (joinSp (p1 :: ps) ++ [13, 10]) (hQ_spHead _) hne4
      have hb10 := capa_branch_err [83, 84, 76, 83] lineEndingP
        (fun _ => Capability.stls) (by decide) tag htag (joinSp (p1 :: ps) ++ [13, 10])
        hQ_lineEnding
      have hb11 := capa_branch_err [65, 85, 84, 72, 45, 82, 69, 83, 80, 45, 67, 79, 68, 69]
        lineEndingP (fun _ => Capability.authRespCode) (by decide) tag htag
        (joinSp (p1 :: ps) ++ [13, 10]) hQ_lineEnding
      have hb12 := capa_branch_err [76, 65, 78, 71] lineEndingP
        (fun _ => Capability.lang) (by decide) tag htag (joinSp (p1 :: ps) ++ [13, 10])
        hQ_lineEnding
      have hb13 := capa_branch_err2 [85, 84, 70, 56]
        (seq2 (optP (tagNoCaseP [32, 85, 83, 69, 82])) lineEndingP)
        (fun x => Capability.utf8 x.2.1.isSome) (by decide) tag htag
        (joinSp (p1 :: ps) ++ [13, 10]) hQ_utf8Tail hne5
      have hct : capa_tag (tag ++ 32 :: (joinSp (p1 :: ps) ++ [13, 10])) =
          .ok (32 :: (joinSp (p1 :: ps) ++ [13, 10])) tag := by
        refine utf8Check_of_valid (takeWhile1P_exact htag htagne (by decide))
          (utf8Valid_of_ascii fun b hb => ?_)
        have := is_cchar_range (htag b hb)
        omega
      have hmany : many0P (precededP spP param) (32 :: (joinSp (p1 :: ps) ++ [13, 10])) =
          .ok [13, 10] (p1 :: ps) := by
        rw [joinSp_encode]
        unfold many0P
        exact many0_params_aux (p1 :: ps) 13 [10] hpv2 (by omega) (by decide) _
          (Nat.lt_succ_self _)
      have hother : pmap (seq2 capa_tag (seq2 (many0P (precededP spP param)) lineEndingP))
          (fun x => Capability.other x.1 x.2.1)
          (tag ++ 32 :: (joinSp (p1 :: ps) ++ [13, 10])) =
          .ok [] (.other tag (p1 :: ps)) := by
        simp [pmap, seq2, hct, hmany, lineEndingP]
      have hshape : Capability.toBytes (.other tag (p1 :: ps)) ++ [13, 10] =
          tag ++ 32 :: (joinSp (p1 :: ps) ++ [13, 10]) := by
        simp [Capability.toBytes]
      rw [hshape]
      simp only [capability, altP, hb1, hb2, hb3, hb4, hb5, hb6, hb7, hb8, hb9, hb10, hb11,
        hb12, hb13, hother, valueP]


/-! ## Prefix-consumption lemmas and the multi-line termination structure -/

theorem consumes_tagP (t : Bytes) : Consumes (tagP t) := by
  intro i r v h
  unfold tagP at h
  cases hc : cmpBytes false i t <;> rw [hc] at h <;> cases h
  exact ⟨i.take t.length, (List.take_append_drop t.length i).symm⟩

theorem consumes_tagNoCaseP (t : Bytes) : Consumes (tagNoCaseP t) := by
  intro i r v h
  unfold tagNoCaseP at h
  cases hc : cmpBytes true i t <;> rw [hc] at h <;> cases h
  exact ⟨i.take t.length, (List.take_append_drop t.length i).symm⟩

theorem consumes_takeWhileP (p : Nat → Bool) : Consumes (takeWhileP p) := by
  intro i r v h
  unfold takeWhileP at h
  cases hd : i.dropWhile p <;> rw [hd] at h <;> cases h
  exact ⟨i.takeWhile p, by rw [← hd, List.takeWhile_append_dropWhile]⟩

theorem consumes_takeWhile1P (p : Nat → Bool) : Consumes (takeWhile1P p) := by
  intro i r v h
  unfold takeWhile1P at h
  cases hd : i.dropWhile p <;> rw [hd] at h
  · cases h
  · repeat' split at h
    all_goals try contradiction
    all_goals cases h
    exact ⟨i.takeWhile p, by rw [← hd, List.takeWhile_append_dropWhile]⟩

theorem consumes_takeWhileMN (m n : Nat) (p : Nat → Bool) : Consumes (takeWhileMN m n p) := by
  intro i r v h
  unfold takeWhileMN at h
  cases hd : i.dropWhile p <;> rw [hd] at h <;> repeat' split at h
  all_goals try contradiction
  all_goals cases h
  all_goals first
    | exact ⟨i.takeWhile p, by rw [← hd, List.takeWhile_append_dropWhile]⟩
    | exact ⟨i.take n, (List.take_append_drop n i).symm⟩

theorem consumes_takeTillP (p : Nat → Bool) : Consumes (takeTillP p) := by
  intro i r v h
  unfold takeTillP at h
  cases hd : i.dropWhile (fun b => !p b) <;> rw [hd] at h <;> cases h
  exact ⟨i.takeWhile (fun b => !p b), by rw [← hd, List.takeWhile_append_dropWhile]⟩

/-- `line_ending` consumes `"\n"` or `"\r\n"`, returned as the value. -/
theorem lineEndingP_ok {i r : Bytes} {v : Bytes} (h : lineEndingP i = .ok r v) :
    (v = [10] ∨ v = [13, 10]) ∧ i = v ++ r := by
  unfold lineEndingP at h
  cases i with
  | nil => cases h
  | cons b rest =>
    replace h : (if b = 10 then PResult.ok rest [10]
        else if b = 13 then
          (match rest with
           | [] => PResult.incomplete
           | c :: rest2 => if c = 10 then PResult.ok rest2 [13, 10] else PResult.err)
        else PResult.err) = PResult.ok r v := h
    by_cases hb : b = 10
    · subst hb
      rw [if_pos rfl] at h
      cases h
      exact ⟨Or.inl rfl, rfl⟩
    · rw [if_neg hb] at h
      by_cases hb2 : b = 13
      · subst hb2
        rw [if_pos rfl] at h
        cases rest with
        | nil => cases h
        | cons c rest2 =>
          replace h : (if c = 10 then PResult.ok rest2 [13, 10] else PResult.err) =
              PResult.ok r v := h
          by_cases hc : c = 10
          · subst hc
            rw [if_pos rfl] at h
            cases h
            exact ⟨Or.inr rfl, rfl⟩
          · rw [if_neg hc] at h
            cases h
      · rw [if_neg hb2] at h
        cases h

theorem consumes_lineEndingP : Consumes lineEndingP := by
  intro i r v h
  exact ⟨v, (lineEndingP_ok h).2⟩

theorem consumes_notLineEndingP : Consumes notLineEndingP := by
  intro i r v h
  unfold notLineEndingP at h
  have hsuffix : ∃ c, i = c ++ i.dropWhile (fun b => b != 13 && b != 10) :=
    ⟨i.takeWhile (fun b => b != 13 && b != 10),
      (List.takeWhile_append_dropWhile (p := fun b => b != 13 && b != 10) (l := i)).symm⟩
  cases hd : i.dropWhile (fun b => b != 13 && b != 10) <;> rw [hd] at h <;> rw [hd] at hsuffix
  · cases h
  · repeat' split at h
    all_goals try contradiction
    all_goals cases h
    all_goals exact hsuffix

theorem consumes_spP : Consumes spP := by
  intro i r v h
  unfold spP at h
  cases i with
  | nil => cases h
  | cons b rest =>
    replace h : (if b = 32 then PResult.ok rest () else PResult.err) = PResult.ok r v := h
    by_cases hb : b = 32
    · rw [if_pos hb] at h
      cases h
      exact ⟨[b], rfl⟩
    · rw [if_neg hb] at h
      cases h


theorem consumes_pmap {α β : Type} {p : Parser α} (f : α → β) (hp : Consumes p) :
    Consumes (pmap p f) := by
  intro i r v h
  unfold pmap at h
  cases hc : p i <;> rw [hc] at h <;> cases h
  exact hp i r _ hc

theorem consumes_valueP {α β : Type} (v : α) {p : Parser β} (hp : Consumes p) :
    Consumes (valueP v p) := consumes_pmap _ hp

theorem consumes_seq2 {α β : Type} {p : Parser α} {q : Parser β} (hp : Consumes p)
    (hq : Consumes q) : Consumes (seq2 p q) := by
  intro i r v h
  unfold seq2 at h
  cases hc : p i with
  | ok r1 a =>
    simp only [hc] at h
    cases hc2 : q r1 <;> rw [hc2] at h <;> cases h
    obtain ⟨c1, h1⟩ := hp i r1 a hc
    obtain ⟨c2, h2⟩ := hq r1 r _ hc2
    exact ⟨c1 ++ c2, by rw [h1, h2, List.append_assoc]⟩
  | err => rw [hc] at h; cases h
  | incomplete => rw [hc] at h; cases h

theorem consumes_precededP {α β : Type} {p : Parser α} {q : Parser β} (hp : Consumes p)
    (hq : Consumes q) : Consumes (precededP p q) := consumes_pmap _ (consumes_seq2 hp hq)

theorem consumes_terminatedP {α β : Type} {p : Parser α} {q : Parser β} (hp : Consumes p)
    (hq : Consumes q) : Consumes (terminatedP p q) := consumes_pmap _ (consumes_seq2 hp hq)

theorem consumes_delimitedP {α β γ : Type} {p : Parser α} {q : Parser β} {s : Parser γ}
    (hp : Consumes p) (hq : Consumes q) (hs : Consumes s) : Consumes (delimitedP p q s) :=
  consumes_pmap _ (consumes_seq2 hp (consumes_seq2 hq hs))

theorem consumes_separatedPairP {α β γ : Type} {p : Parser α} {q : Parser β} {s : Parser γ}
    (hp : Consumes p) (hq : Consumes q) (hs : Consumes s) : Consumes (separatedPairP p q s) :=
  consumes_pmap _ (consumes_seq2 hp (consumes_seq2 hq hs))

theorem consumes_optP {α : Type} {p : Parser α} (hp : Consumes p) : Consumes (optP p) := by
  intro i r v h
  unfold optP at h
  cases hc : p i <;> rw [hc] at h <;> cases h
  · exact hp i r _ hc
  · exact ⟨[], rfl⟩

theorem consumes_altP {α : Type} {p q : Parser α} (hp : Consumes p) (hq : Consumes q) :
    Consumes (altP p q) := by
  intro i r v h
  unfold altP at h
  cases hc : p i <;> rw [hc] at h
  · cases h
    exact hp i r v hc
  · exact hq i r v h
  · cases h

theorem consumes_recognizeP {α : Type} {p : Parser α} (hp : Consumes p) :
    Consumes (recognizeP p) := by
  intro i r v h
  unfold recognizeP at h
  cases hc : p i <;> rw [hc] at h <;> cases h
  exact hp i r _ hc

theorem consumes_utf8Check {p : Parser Bytes} (hp : Consumes p) : Consumes (utf8Check p) := by
  intro i r v h
  unfold utf8Check at h
  cases hc : p i with
  | ok r1 v1 =>
    simp only [hc] at h
    split at h
    · cases h
      exact hp i r _ hc
    · cases h
  | err => rw [hc] at h; cases h
  | incomplete => rw [hc] at h; cases h

theorem consumes_many0Aux {α : Type} {p : Parser α} (hp : Consumes p) :
    ∀ fuel i r vs, many0Aux p fuel i = .ok r vs → ∃ c, i = c ++ r := by
  intro fuel
  induction fuel with
  | zero => intro i r vs h; cases h
  | succ fuel ih =>
    intro i r vs h
    rw [many0Aux] at h
    cases hc : p i with
    | ok r1 a =>
      simp only [hc] at h
      split at h
      · cases h
      · cases hc2 : many0Aux p fuel r1 <;> rw [hc2] at h <;> cases h
        obtain ⟨c1, h1⟩ := hp i r1 a hc
        obtain ⟨c2, h2⟩ := ih r1 r _ hc2
        exact ⟨c1 ++ c2, by rw [h1, h2, List.append_assoc]⟩
    | err =>
      rw [hc] at h
      cases h
      exact ⟨[], rfl⟩
    | incomplete => rw [hc] at h; cases h

theorem consumes_many0P {α : Type} {p : Parser α} (hp : Consumes p) : Consumes (many0P p) := by
  intro i r vs h
  exact consumes_many0Aux hp _ i r vs h

theorem consumes_sepList1Aux {α β : Type} {sep : Parser β} {p : Parser α} (hp : Consumes p)
    (hsep : Consumes sep) :
    ∀ fuel i r vs, sepList1Aux sep p fuel i = .ok r vs → ∃ c, i = c ++ r := by
  intro fuel
  induction fuel with
  | zero => intro i r vs h; cases h
  | succ fuel ih =>
    intro i r vs h
    rw [sepList1Aux] at h
    cases hc : sep i with
    | ok r1 a =>
      simp only [hc] at h
      split at h
      · cases h
      · cases hc2 : p r1 with
        | ok r2 b =>
          simp only [hc2] at h
          cases hc3 : sepList1Aux sep p fuel r2 <;> rw [hc3] at h <;> cases h
          obtain ⟨c1, h1⟩ := hsep i r1 a hc
          obtain ⟨c2, h2⟩ := hp r1 r2 _ hc2
          obtain ⟨c3, h3⟩ := ih r2 r _ hc3
          refine ⟨c1 ++ (c2 ++ c3), ?_⟩
          rw [h1, h2, h3]
          simp [List.append_assoc]
        | err =>
          rw [hc2] at h
          cases h
          exact ⟨[], rfl⟩
        | incomplete => rw [hc2] at h; cases h
    | err =>
      rw [hc] at h
      cases h
      exact ⟨[], rfl⟩
    | incomplete => rw [hc] at h; cases h

theorem consumes_sepList1P {α β : Type} {sep : Parser β} {p : Parser α} (hp : Consumes p)
    (hsep : Consumes sep) : Consumes (sepList1P sep p) := by
  intro i r vs h
  unfold sepList1P at h
  cases hc : p i with
  | ok r1 a =>
    simp only [hc] at h
    cases hc2 : sepList1Aux sep p (r1.length + 1) r1 <;> rw [hc2] at h <;> cases h
    obtain ⟨c1, h1⟩ := hp i r1 a hc
    obtain ⟨c2, h2⟩ := consumes_sepList1Aux hp hsep _ r1 r _ hc2
    exact ⟨c1 ++ c2, by rw [h1, h2, List.append_assoc]⟩
  | err => rw [hc] at h; cases h
  | incomplete => rw [hc] at h; cases h


theorem consumes_number : Consumes number := by
  intro i r v h
  unfold number at h
  cases hc : utf8Check (takeWhile1P is_digit) i with
  | ok r1 v1 =>
    simp only [hc] at h
    split at h
    · cases h
      exact consumes_utf8Check (consumes_takeWhile1P _) i r _ hc
    · cases h
  | err => rw [hc] at h; cases h
  | incomplete => rw [hc] at h; cases h

theorem consumes_param : Consumes param :=
  consumes_utf8Check (consumes_takeWhile1P _)

theorem consumes_capa_tag : Consumes capa_tag :=
  consumes_utf8Check (consumes_takeWhile1P _)

theorem consumes_language : Consumes language :=
  consumes_utf8Check (consumes_recognizeP (consumes_seq2 (consumes_takeWhileMN _ _ _)
    (consumes_many0P (consumes_seq2 (consumes_tagP _) (consumes_takeWhileMN _ _ _)))))

theorem consumes_resp_level : Consumes resp_level :=
  consumes_utf8Check (consumes_takeWhile1P _)

theorem consumes_resp_code : Consumes resp_code :=
  consumes_delimitedP (consumes_tagP _)
    (consumes_sepList1P consumes_resp_level (consumes_tagP _)) (consumes_tagP _)

theorem consumes_text : Consumes text :=
  consumes_altP
    (consumes_seq2 (consumes_terminatedP consumes_resp_code consumes_spP)
      (consumes_utf8Check consumes_notLineEndingP))
    (consumes_pmap _ (consumes_utf8Check (consumes_takeWhileP _)))

theorem consumes_head : Consumes head := by
  intro i r v h
  unfold head at h
  cases hc : optP (precededP spP text) i with
  | ok r1 vopt =>
    have hcons := consumes_optP (consumes_precededP consumes_spP consumes_text) i r1 vopt hc
    cases vopt with
    | some pr2 =>
      obtain ⟨code, comment⟩ := pr2
      simp only [hc] at h
      cases h
      exact hcons
    | none =>
      simp only [hc] at h
      cases h
      exact hcons
  | err => rw [hc] at h; cases h
  | incomplete => rw [hc] at h; cases h

theorem consumes_status : Consumes status :=
  consumes_altP (consumes_valueP _ (consumes_tagNoCaseP _))
    (consumes_valueP _ (consumes_tagNoCaseP _))

theorem consumes_single_line {O : Type} {P : Parser O} (hP : Consumes P) (pr : Bool) :
    Consumes (single_line P pr) := by
  intro i r v h
  unfold single_line at h
  cases hs : status i with
  | ok rem st =>
    have h0 := consumes_status i rem st hs
    simp only [hs] at h
    cases st with
    | okS =>
      cases hsp : (if pr then spP rem else .ok rem ()) with
      | ok rem2 u =>
        have h1 : ∃ c, rem = c ++ rem2 := by
          cases pr with
          | false =>
            rw [if_neg (by simp : ¬(false = true))] at hsp
            cases hsp
            exact ⟨[], rfl⟩
          | true =>
            rw [if_pos rfl] at hsp
            exact consumes_spP rem rem2 u hsp
        simp only [hsp] at h
        cases hq : seq2 P lineEndingP rem2 with
        | ok r2 pv =>
          rw [hq] at h
          cases h
          obtain ⟨c0, h0⟩ := h0
          obtain ⟨c1, h1⟩ := h1
          obtain ⟨c2, h2⟩ := consumes_seq2 hP consumes_lineEndingP rem2 r _ hq
          exact ⟨c0 ++ c1 ++ c2, by rw [h0, h1, h2]; simp [List.append_assoc]⟩
        | err => rw [hq] at h; cases h
        | incomplete => rw [hq] at h; cases h
      | err => simp only [hsp] at h; cases h
      | incomplete => simp only [hsp] at h; cases h
    | errS =>
      cases hq : seq2 head lineEndingP rem with
      | ok r2 pv =>
        simp only [hq] at h
        cases h
        obtain ⟨c0, h0⟩ := h0
        obtain ⟨c2, h2⟩ := consumes_seq2 consumes_head consumes_lineEndingP rem r _ hq
        exact ⟨c0 ++ c2, by rw [h0, h2]; simp [List.append_assoc]⟩
      | err => simp only [hq] at h; cases h
      | incomplete => simp only [hq] at h; cases h
  | err => rw [hs] at h; cases h
  | incomplete => rw [hs] at h; cases h

theorem consumes_dot_stuffed : Consumes dot_stuffed := by
  intro i r v h
  unfold dot_stuffed at h
  cases hc : utf8Check notLineEndingP i with
  | ok r1 v1 =>
    simp only [hc] at h
    split at h
    · cases h
    · cases h
      exact consumes_utf8Check consumes_notLineEndingP i r _ hc
  | err => rw [hc] at h; cases h
  | incomplete => rw [hc] at h; cases h

theorem consumes_scan_listing : Consumes scan_listing :=
  consumes_pmap _ (consumes_separatedPairP consumes_number consumes_spP consumes_number)

theorem consumes_unique_id_listing : Consumes unique_id_listing :=
  consumes_pmap _ (consumes_separatedPairP consumes_number consumes_spP
    (consumes_takeWhileMN _ _ _))

theorem consumes_language_listing : Consumes language_listing :=
  consumes_pmap _ (consumes_separatedPairP consumes_language consumes_spP
    (consumes_utf8Check consumes_notLineEndingP))

theorem consumes_capability : Consumes capability :=
  consumes_altP (consumes_valueP _ (consumes_seq2 (consumes_tagNoCaseP _) consumes_lineEndingP))
  (consumes_altP (consumes_valueP _ (consumes_seq2 (consumes_tagNoCaseP _) consumes_lineEndingP))
  (consumes_altP (consumes_pmap _ (consumes_seq2 (consumes_tagNoCaseP _)
      (consumes_seq2 (consumes_many0P (consumes_precededP consumes_spP consumes_param))
        consumes_lineEndingP)))
  (consumes_altP (consumes_valueP _ (consumes_seq2 (consumes_tagNoCaseP _) consumes_lineEndingP))
  (consumes_altP (consumes_pmap _ (consumes_seq2 (consumes_tagNoCaseP _)
      (consumes_seq2 consumes_spP (consumes_seq2 consumes_number
        (consumes_seq2 (consumes_optP (consumes_tagNoCaseP _)) consumes_lineEndingP)))))
  (consumes_altP (consumes_valueP _ (consumes_seq2 (consumes_tagNoCaseP _) consumes_lineEndingP))
  (consumes_altP (consumes_pmap _ (consumes_seq2 (consumes_tagNoCaseP _)
      (consumes_seq2 consumes_spP (consumes_seq2
        (consumes_altP (consumes_pmap _ consumes_number) (consumes_valueP _ (consumes_tagNoCaseP _)))
        (consumes_seq2 (consumes_optP (consumes_tagNoCaseP _)) consumes_lineEndingP)))))
  (consumes_altP (consumes_valueP _ (consumes_seq2 (consumes_tagNoCaseP _) consumes_lineEndingP))
  (consumes_altP (consumes_pmap _ (consumes_seq2 (consumes_tagNoCaseP _)
      (consumes_seq2 consumes_spP (consumes_seq2 (consumes_utf8Check consumes_notLineEndingP)
        consumes_lineEndingP))))
  (consumes_altP (consumes_valueP _ (consumes_seq2 (consumes_tagNoCaseP _) consumes_lineEndingP))
  (consumes_altP (consumes_valueP _ (consumes_seq2 (consumes_tagNoCaseP _) consumes_lineEndingP))
  (consumes_altP (consumes_valueP _ (consumes_seq2 (consumes_tagNoCaseP _) consumes_lineEndingP))
  (consumes_altP (consumes_pmap _ (consumes_seq2 (consumes_tagNoCaseP _)
      (consumes_seq2 (consumes_optP (consumes_tagNoCaseP _)) consumes_lineEndingP)))
  (consumes_pmap _ (consumes_seq2 consumes_capa_tag
      (consumes_seq2 (consumes_many0P (consumes_precededP consumes_spP consumes_param))
        consumes_lineEndingP)))))))))))))))


theorem cmp_ok_exact : ∀ (t i : Bytes), cmpBytes false i t = .ok → i = t ++ i.drop t.length := by
  intro t
  induction t with
  | nil => intro i _; simp
  | cons b bs ih =>
    intro i h
    cases i with
    | nil => rw [cmpBytes] at h; cases h
    | cons a as =>
      rw [cmpBytes] at h
      rw [if_congr (show (if (false : Bool) then lowerByte a = lowerByte b else a = b) ↔ a = b
        by simp) rfl rfl] at h
      by_cases hab : a = b
      · rw [if_pos hab] at h
        subst hab
        have := ih as h
        simp only [List.length_cons, List.drop_succ_cons, List.cons_append]
        rw [← this]
      · rw [if_neg hab] at h
        cases h

theorem tagP_ok_append {t i r : Bytes} {v : Bytes} (h : tagP t i = .ok r v) : i = t ++ r := by
  unfold tagP at h
  cases hc : cmpBytes false i t with
  | ok =>
    rw [hc] at h
    cases h
    exact cmp_ok_exact t i hc
  | incomplete => rw [hc] at h; cases h
  | error => rw [hc] at h; cases h

theorem seq2_ok_inv {α β : Type} {p : Parser α} {q : Parser β} {i r : Bytes} {v : α × β}
    (h : seq2 p q i = .ok r v) :
    ∃ r1 a b, v = (a, b) ∧ p i = .ok r1 a ∧ q r1 = .ok r b := by
  unfold seq2 at h
  cases hc : p i with
  | ok r1 a =>
    simp only [hc] at h
    cases hq : q r1 with
    | ok r2 b =>
      rw [hq] at h
      cases h
      exact ⟨r1, a, b, rfl, rfl, hq⟩
    | err => rw [hq] at h; cases h
    | incomplete => rw [hq] at h; cases h
  | err => rw [hc] at h; cases h
  | incomplete => rw [hc] at h; cases h

/-- Structure of a successful positive multi-line parse: the consumed prefix
ends exactly with the terminator line `"." CRLF` (or `"." LF`), the
remainder starting right after it. -/
theorem multi_line_structure {O : Type} {P : Parser O} (hP : Consumes P) :
    ∀ i r ml, multi_line P i = .ok r (Response.ok ml) →
      ∃ pre le, i = pre ++ 46 :: (le ++ r) ∧ (le = [10] ∨ le = [13, 10]) := by
  intro i r ml h
  unfold multi_line at h
  cases hsl : single_line head false i with
  | ok rem resp =>
    obtain ⟨c0, hc0⟩ := consumes_single_line consumes_head false i rem resp hsl
    cases resp with
    | ok hd =>
      simp only [hsl] at h
      cases hseq : seq2 (many0P (terminatedP P lineEndingP)) (seq2 (tagP [46]) lineEndingP)
          rem with
      | ok r2 pv =>
        rw [hseq] at h
        cases h
        obtain ⟨r1, a0, b0, hv, hm, ht⟩ := seq2_ok_inv hseq
        obtain ⟨c1, hc1⟩ :=
          consumes_many0P (consumes_terminatedP hP consumes_lineEndingP) rem r1 _ hm
        obtain ⟨r4, a1, le, hb0, htag, hle⟩ := seq2_ok_inv ht
        have htag2 := tagP_ok_append htag
        obtain ⟨hle1, hle2⟩ := lineEndingP_ok hle
        refine ⟨c0 ++ c1, le, ?_, hle1⟩
        rw [hc0, hc1, htag2, hle2]
        simp [List.append_assoc]
      | err => rw [hseq] at h; cases h
      | incomplete => rw [hseq] at h; cases h
    | err hd =>
      simp only [hsl] at h
      cases h
  | err => rw [hsl] at h; cases h
  | incomplete => rw [hsl] at h; cases h

theorem many0Aux_elem {α : Type} {p : Parser α} {Q : α → Prop}
    (hp : ∀ i r v, p i = .ok r v → Q v) :
    ∀ fuel i r vs, many0Aux p fuel i = .ok r vs → ∀ x ∈ vs, Q x := by
  intro fuel
  induction fuel with
  | zero => intro i r vs h; cases h
  | succ fuel ih =>
    intro i r vs h
    rw [many0Aux] at h
    cases hc : p i with
    | ok r1 a =>
      simp only [hc] at h
      split at h
      · cases h
      · cases hc2 : many0Aux p fuel r1 <;> rw [hc2] at h <;> cases h
        intro x hx
        rcases List.mem_cons.mp hx with hx | hx
        · subst hx
          exact hp i r1 x hc
        · exact ih r1 r _ hc2 x hx
    | err =>
      rw [hc] at h
      cases h
      intro x hx
      cases hx
    | incomplete => rw [hc] at h; cases h

theorem terminatedP_elem {α β : Type} {p : Parser α} {q : Parser β} {Q : α → Prop}
    (hp : ∀ i r v, p i = .ok r v → Q v) :
    ∀ i r v, terminatedP p q i = .ok r v → Q v := by
  intro i r v h
  unfold terminatedP pmap seq2 at h
  cases hc : p i with
  | ok r1 a =>
    simp only [hc] at h
    cases hq : q r1 <;> rw [hq] at h <;> cases h
    exact hp i r1 _ hc
  | err => rw [hc] at h; cases h
  | incomplete => rw [hc] at h; cases h

theorem dot_stuffed_ne_dot : ∀ i r v, dot_stuffed i = .ok r v → v ≠ [46] := by
  intro i r v h
  unfold dot_stuffed at h
  cases hc : utf8Check notLineEndingP i with
  | ok r1 v1 =>
    simp only [hc] at h
    split at h
    · cases h
    · rename_i hne
      cases h
      exact hne
  | err => rw [hc] at h; cases h
  | incomplete => rw [hc] at h; cases h

/-- The body of a positive `multi_line dot_stuffed` parse never contains the
lone-dot line. -/
theorem multi_line_dot_body :
    ∀ i r ml, multi_line dot_stuffed i = .ok r (Response.ok ml) →
      ∀ s ∈ ml.body, s ≠ [46] := by
  intro i r ml h
  unfold multi_line at h
  cases hsl : single_line head false i with
  | ok rem resp =>
    cases resp with
    | ok hd =>
      simp only [hsl] at h
      cases hseq : seq2 (many0P (terminatedP dot_stuffed lineEndingP))
          (seq2 (tagP [46]) lineEndingP) rem with
      | ok r2 pv =>
        rw [hseq] at h
        cases h
        obtain ⟨r1, a0, b0, hv, hm, ht⟩ := seq2_ok_inv hseq
        subst hv
        exact many0Aux_elem (terminatedP_elem dot_stuffed_ne_dot) _ rem r1 _ hm
      | err => rw [hseq] at h; cases h
      | incomplete => rw [hseq] at h; cases h
    | err hd =>
      simp only [hsl] at h
      cases h
  | err => rw [hsl] at h; cases h
  | incomplete => rw [hsl] at h; cases h


/-! ## Grammar laws for single lines, numerals and the greeting -/

/-- `take_till` on a run that ends at the first byte satisfying `p`. -/
theorem takeTillP_exact {p : Nat → Bool} {s : Bytes} {b : Nat} {t : Bytes}
    (hs : ∀ x ∈ s, p x = false) (hb : p b = true) :
    takeTillP p (s ++ b :: t) = .ok (b :: t) s := by
  unfold takeTillP
  have hs2 : ∀ x ∈ s, (!p x) = true := by
    intro x hx
    simp [hs x hx]
  rw [dropWhile_append_all hs2, takeWhile_append_all hs2, dropWhile_stop (by simp [hb]),
    takeWhile_stop (by simp [hb]), List.append_nil]

/-- `dot_stuffed` on a CRLF-terminated line: fails exactly on the lone dot,
returns every other line verbatim. -/
theorem dot_stuffed_line {line rest : Bytes} (hch : ∀ b ∈ line, b ≠ 13 ∧ b ≠ 10)
    (hu : utf8Valid line = true) :
    dot_stuffed (line ++ 13 :: 10 :: rest) =
      if line = [46] then .err else .ok (13 :: 10 :: rest) line := by
  have h1 := utf8Check_of_valid (@notLineEndingP_crlf _ rest hch) hu
  unfold dot_stuffed
  simp only [h1]

/-- A decimal numeral whose value does not fit in 32 bits fails `number`. -/
theorem number_overflow {ds : Bytes} {b : Nat} {t : Bytes} (hds : ∀ x ∈ ds, is_digit x = true)
    (hval : 4294967296 ≤ decVal ds) (hb : is_digit b = false) :
    number (ds ++ b :: t) = .err := by
  have hne : ds ≠ [] := by
    intro he
    rw [he] at hval
    simp [decVal] at hval
  rw [number_run hds hne hb, if_neg (by omega)]

/-- The greeting grammar on a comment region holding a bracketed timestamp:
the returned comment joins the fragments with a literal `<>` and the
timestamp content is returned separately. -/
theorem greeting_timestamp_law (c1 ts c2 : Bytes)
    (hc1 : ∀ b ∈ c1, is_gchar b = true)
    (hhead : c1.head? ≠ some 91)
    (hts : ∀ b ∈ ts, ¬(b = 62)) (htsu : utf8Valid ts = true)
    (hc2 : ∀ b ∈ c2, is_gchar b = true) :
    greeting ([43, 79, 75, 32] ++ c1 ++ [60] ++ ts ++ [62] ++ c2 ++ [13, 10]) =
      .ok [] ⟨[], c1 ++ [60, 62] ++ c2, some ts⟩ := by
  have hgle : ∀ x : Nat, is_gchar x = true → x ≤ 127 := by
    intro x hx
    simp only [is_gchar, Bool.or_eq_true, Bool.and_eq_true, decide_eq_true_eq] at hx
    omega
  have hrc : cmpBytes false (c1 ++ 60 :: (ts ++ 62 :: (c2 ++ [13, 10]))) [91] = .error := by
    cases c1 with
    | nil => simp [cmpBytes]
    | cons b t' =>
      have hb : ¬(b = 91) := by
        intro he
        subst he
        simp at hhead
      simp [cmpBytes, hb]
  have hg1 : utf8Check (takeWhileP is_gchar) (c1 ++ 60 :: (ts ++ 62 :: (c2 ++ [13, 10]))) =
      .ok (60 :: (ts ++ 62 :: (c2 ++ [13, 10]))) c1 :=
    utf8Check_of_valid
      (takeWhileP_exact (b := 60) (t := ts ++ 62 :: (c2 ++ [13, 10])) hc1 (by decide))
      (utf8Valid_of_ascii fun b hb => hgle b (hc1 b hb))
  have htt : utf8Check (takeTillP (fun b => b == 62)) (ts ++ 62 :: (c2 ++ [13, 10])) =
      .ok (62 :: (c2 ++ [13, 10])) ts :=
    utf8Check_of_valid
      (takeTillP_exact (b := 62) (t := c2 ++ [13, 10]) (fun x hx => by simp [hts x hx])
        (by simp)) htsu
  have hg2 : utf8Check (takeWhileP is_gchar) (c2 ++ [13, 10]) = .ok [13, 10] c2 := by
    have h0 := takeWhileP_exact (p := is_gchar) (b := 13) (t := ([10] : Bytes)) hc2 (by decide)
    exact utf8Check_of_valid h0 (utf8Valid_of_ascii fun b hb => hgle b (hc2 b hb))
  simp [greeting, seq2, optP, precededP, pmap, spP, resp_code, delimitedP, tagNoCaseP, tagP,
    cmpBytes, lowerByte, timestamp, lineEndingP, hrc, hg1, htt, hg2]



/-! ## The claims -/

/-- C1: the command round trip holds for every well-formed `Command`: when the
operands are free of CR and LF, UTF-8 valid, and fit their token grammars
(APOP name space-free, AUTH mechanism of auth chars, AUTH initial response of
base64 shape, numbers below 2^32, LANG tag accepted by the language grammar),
parsing `c.serialize` succeeds with empty remainder and returns `c`. -/
theorem command_parse_serialize (c : Command) (h : c.wf = true) :
    command c.serialize = .ok [] c :=
  command_roundtrip c h

theorem command_parse_serialize_witness :
    (Command.apop [97] [98]).wf = true ∧
      command (Command.apop [97] [98]).serialize = .ok [] (Command.apop [97] [98]) :=
  ⟨by decide, command_parse_serialize (Command.apop [97] [98]) (by decide)⟩

/-- C1 counterexample: `USER` with a line feed in the name serializes to
`"USER \n\r\n"`, which parses back as `USER ""` with leftover input, so the
unconditional round-trip law fails. -/
theorem command_parse_serialize_cex :
    command (Command.serialize (Command.user [10])) = .ok [13, 10] (Command.user []) ∧
      Command.user [] ≠ Command.user [10] := by
  decide

/-- C2: the capability round trip holds for every well-formed `Capability`:
when `SASL` carries at least one mechanism, numbers are below 2^32,
`IMPLEMENTATION` text is CRLF-free and UTF-8 valid, and an `Other` tag is a
nonempty `cchar` run distinct (case-insensitively) from the parameterized
keywords with nonempty `VCHAR` parameters, parsing `k.toBytes ++ CRLF`
succeeds with empty remainder and returns `k`. -/
theorem capability_parse_tostring (k : Capability) (h : k.wf = true) :
    capability (k.toBytes ++ [13, 10]) = .ok [] k :=
  capability_roundtrip k h

theorem capability_parse_tostring_witness :
    (Capability.sasl [[80, 76, 65, 73, 78]]).wf = true ∧
      capability ((Capability.sasl [[80, 76, 65, 73, 78]]).toBytes ++ [13, 10]) =
        .ok [] (Capability.sasl [[80, 76, 65, 73, 78]]) :=
  ⟨by decide, capability_parse_tostring (Capability.sasl [[80, 76, 65, 73, 78]]) (by decide)⟩

/-- C2 counterexample: `SASL` with no mechanisms serializes to `"SASL "` with a
trailing space, and parsing it back fails, so the unconditional capability
round-trip law fails. -/
theorem capability_parse_tostring_cex :
    capability (Capability.toBytes (Capability.sasl []) ++ [13, 10]) = .err := by
  decide

/-- C3: for each supplied per-line parser, a successful positive `multi_line`
parse consumes exactly up to and including the terminating lone-dot line with
its line ending, and (for the byte-line parser `dot_stuffed`) no element of
the returned body equals the lone-dot line. -/
theorem multi_line_terminator :
    (∀ i r ml, multi_line dot_stuffed i = .ok r (Response.ok ml) →
      (∃ pre le, i = pre ++ 46 :: (le ++ r) ∧ (le = [10] ∨ le = [13, 10])) ∧
        ∀ s ∈ ml.body, s ≠ [46]) ∧
    (∀ i r (ml : MultiLine ScanListing), multi_line scan_listing i = .ok r (Response.ok ml) →
      ∃ pre le, i = pre ++ 46 :: (le ++ r) ∧ (le = [10] ∨ le = [13, 10])) ∧
    (∀ i r (ml : MultiLine UniqueIdListing),
      multi_line unique_id_listing i = .ok r (Response.ok ml) →
        ∃ pre le, i = pre ++ 46 :: (le ++ r) ∧ (le = [10] ∨ le = [13, 10])) ∧
    (∀ i r (ml : MultiLine LanguageListing),
      multi_line language_listing i = .ok r (Response.ok ml) →
        ∃ pre le, i = pre ++ 46 :: (le ++ r) ∧ (le = [10] ∨ le = [13, 10])) ∧
    (∀ i r (ml : MultiLine Capability), multi_line capability i = .ok r (Response.ok ml) →
      ∃ pre le, i = pre ++ 46 :: (le ++ r) ∧ (le = [10] ∨ le = [13, 10])) :=
  ⟨fun i r ml h => ⟨multi_line_structure consumes_dot_stuffed i r ml h,
      multi_line_dot_body i r ml h⟩,
    fun i r ml h => multi_line_structure consumes_scan_listing i r ml h,
    fun i r ml h => multi_line_structure consumes_unique_id_listing i r ml h,
    fun i r ml h => multi_line_structure consumes_language_listing i r ml h,
    fun i r ml h => multi_line_structure consumes_capability i r ml h⟩

theorem multi_line_terminator_witness :
    (∃ pre le, ([43, 79, 75, 13, 10, 88, 13, 10, 46, 13, 10] : Bytes) =
        pre ++ 46 :: (le ++ ([] : Bytes)) ∧ (le = [10] ∨ le = [13, 10])) ∧
      ∀ s ∈ (MultiLine.mk ⟨[], []⟩ [[88]] : MultiLine Bytes).body, s ≠ [46] :=
  multi_line_terminator.1 [43, 79, 75, 13, 10, 88, 13, 10, 46, 13, 10] []
    ⟨⟨[], []⟩, [[88]]⟩ (by decide)

/-- C4: the greeting parser maps the three example greetings to their expected
values, and in general a bracketed timestamp in the comment region is
replaced by the literal marker `<>` between the comment fragments while its
bare content is returned in the `timestamp` field. -/
theorem greeting_examples_and_timestamp :
    greeting [43, 79, 75, 13, 10] = .ok [] ⟨[], [], none⟩ ∧
    greeting [43, 111, 107, 32, 72, 101, 108, 108, 111, 32, 60, 49, 50, 51, 62, 32, 87, 111,
        114, 108, 100, 33, 13, 10] =
      .ok [] ⟨[], [72, 101, 108, 108, 111, 32, 60, 62, 32, 87, 111, 114, 108, 100, 33],
        some [49, 50, 51]⟩ ∧
    greeting [43, 111, 107, 32, 91, 97, 47, 98, 93, 32, 116, 101, 120, 116, 13, 10] =
      .ok [] ⟨[[97], [98]], [116, 101, 120, 116], none⟩ ∧
    ∀ c1 ts c2 : Bytes, (∀ b ∈ c1, is_gchar b = true) → c1.head? ≠ some 91 →
      (∀ b ∈ ts, ¬(b = 62)) → utf8Valid ts = true → (∀ b ∈ c2, is_gchar b = true) →
      greeting ([43, 79, 75, 32] ++ c1 ++ [60] ++ ts ++ [62] ++ c2 ++ [13, 10]) =
        .ok [] ⟨[], c1 ++ [60, 62] ++ c2, some ts⟩ :=
  ⟨by decide, by decide, by decide,
    fun c1 ts c2 h1 h2 h3 h4 h5 => greeting_timestamp_law c1 ts c2 h1 h2 h3 h4 h5⟩

theorem greeting_examples_and_timestamp_witness :
    greeting ([43, 79, 75, 32] ++ [72] ++ [60] ++ [49] ++ [62] ++ [33] ++ [13, 10]) =
      .ok [] ⟨[], [72] ++ [60, 62] ++ [33], some [49]⟩ :=
  greeting_examples_and_timestamp.2.2.2 [72] [49] [33] (by decide) (by decide) (by decide)
    (by decide) (by decide)

/-- C5: every strict prefix of the example command lines, the example
multi-line `LIST` response and the example greetings (truncated before the
terminating line ending) parses as `incomplete`, never as a syntax error,
while a complete line with an unrecognized keyword is a syntax error, never
`incomplete`. -/
theorem parse_incomplete_on_truncation :
    (∀ n, n < 6 → command (List.take n [76, 73, 83, 84, 13, 10]) = .incomplete) ∧
    (∀ n, n < 8 → command (List.take n [76, 73, 83, 84, 32, 50, 13, 10]) = .incomplete) ∧
    (∀ n, n < 8 → command (List.take n [76, 65, 78, 71, 32, 42, 13, 10]) = .incomplete) ∧
    (∀ n, n < 22 → response_list_all
      (List.take n [43, 79, 75, 13, 10, 49, 32, 49, 50, 48, 13, 10, 50, 32, 50, 48, 48, 13,
        10, 46, 13, 10]) = .incomplete) ∧
    (∀ n, n < 5 → greeting (List.take n [43, 79, 75, 13, 10]) = .incomplete) ∧
    (∀ n, n < 24 → greeting (List.take n [43, 111, 107, 32, 72, 101, 108, 108, 111, 32, 60,
        49, 50, 51, 62, 32, 87, 111, 114, 108, 100, 33, 13, 10]) = .incomplete) ∧
    (∀ n, n < 16 → greeting (List.take n [43, 111, 107, 32, 91, 97, 47, 98, 93, 32, 116,
        101, 120, 116, 13, 10]) = .incomplete) ∧
    command [88, 89, 90, 90, 89, 13, 10] = .err := by
  decide

theorem parse_incomplete_on_truncation_witness :
    command (List.take 3 [76, 73, 83, 84, 13, 10]) = .incomplete ∧
      greeting (List.take 23 [43, 111, 107, 32, 72, 101, 108, 108, 111, 32, 60, 49, 50, 51,
        62, 32, 87, 111, 114, 108, 100, 33, 13, 10]) = .incomplete :=
  ⟨parse_incomplete_on_truncation.1 3 (by decide),
    parse_incomplete_on_truncation.2.2.2.2.2.1 23 (by decide)⟩

/-- C6: on an input whose status token parses as `-ERR`, `single_line` ignores
the payload parser and the `payload_required` flag entirely: the result with
the flag set equals the result with it cleared, and both equal the generic
error branch (the `head` parser and the line ending wrapped in
`Response.err`) run on the post-status remainder. -/
theorem single_line_err_ignores_payload {O : Type} (P : Parser O) (i rem : Bytes)
    (h : status i = .ok rem Status.errS) :
    single_line P true i = single_line P false i ∧
      single_line P false i = errBranch O rem := by
  unfold single_line
  rw [h]
  exact ⟨rfl, rfl⟩

theorem single_line_err_ignores_payload_witness :
    single_line drop_listing true [45, 69, 82, 82, 32, 120, 13, 10] =
        single_line drop_listing false [45, 69, 82, 82, 32, 120, 13, 10] ∧
      single_line drop_listing false [45, 69, 82, 82, 32, 120, 13, 10] =
        errBranch DropListing [32, 120, 13, 10] :=
  single_line_err_ignores_payload drop_listing [45, 69, 82, 82, 32, 120, 13, 10]
    [32, 120, 13, 10] (by decide)

/-- C7: a decimal numeral operand whose value does not fit in 32 bits makes
the whole command line a syntax error, for the numeric operand of `LIST`,
`RETR`, `DELE` and `UIDL` and for either operand of `TOP` (the other operand
in range): no alternative matches and no wrapped or truncated value is
returned. -/
theorem command_numeral_overflow (ds : Bytes) (m : Nat)
    (hds : ∀ x ∈ ds, is_digit x = true)
    (hval : 4294967296 ≤ decVal ds) (hm : m < 4294967296) :
    command ([76, 73, 83, 84, 32] ++ ds ++ [13, 10]) = .err ∧
    command ([82, 69, 84, 82, 32] ++ ds ++ [13, 10]) = .err ∧
    command ([68, 69, 76, 69, 32] ++ ds ++ [13, 10]) = .err ∧
    command ([85, 73, 68, 76, 32] ++ ds ++ [13, 10]) = .err ∧
    command ([84, 79, 80, 32] ++ ds ++ 32 :: (natDecimal m ++ [13, 10])) = .err ∧
    command ([84, 79, 80, 32] ++ natDecimal m ++ 32 :: (ds ++ [13, 10])) = .err := by
  have hnum1 : number (ds ++ [13, 10]) = .err := number_overflow hds hval (by decide)
  have hnum2 : number (ds ++ 32 :: (natDecimal m ++ [13, 10])) = .err :=
    number_overflow hds hval (by decide)
  have hnum3 : number (natDecimal m ++ 32 :: (ds ++ [13, 10])) =
      .ok (32 :: (ds ++ [13, 10])) m := number_natDecimal hm (by decide)
  refine ⟨?_, ?_, ?_, ?_, ?_, ?_⟩ <;>
    simp [command, terminatedP, altP, pmap, seq2, valueP, optP, precededP, user, pass, apop,
      stls, capa, quit, stat, list, retr, dele, noop, rset, top, uidl, auth, auth_type, utf8,
      lang, lang_or_wild, tagNoCaseP, tagP, cmpBytes, lowerByte, lineEndingP, hnum1, hnum2,
      hnum3]

theorem command_numeral_overflow_witness :
    command ([76, 73, 83, 84, 32] ++ [52, 50, 57, 52, 57, 54, 55, 50, 57, 54] ++ [13, 10]) =
        .err ∧
      command ([84, 79, 80, 32] ++ [52, 50, 57, 52, 57, 54, 55, 50, 57, 54] ++ 32 ::
        (natDecimal 1 ++ [13, 10])) = .err :=
  ⟨(command_numeral_overflow [52, 50, 57, 52, 57, 54, 55, 50, 57, 54] 1 (by decide)
      (by decide) (by decide)).1,
    (command_numeral_overflow [52, 50, 57, 52, 57, 54, 55, 50, 57, 54] 1 (by decide)
      (by decide) (by decide)).2.2.2.2.1⟩

/-- C8: on a CRLF-terminated line free of CR and LF and UTF-8 valid,
`dot_stuffed` fails exactly when the line is the single dot, and on every
other line (including lines beginning with a dot) returns the content
byte-for-byte unchanged, with no unstuffing. -/
theorem dot_stuffed_verbatim (line rest : Bytes) (hch : ∀ b ∈ line, b ≠ 13 ∧ b ≠ 10)
    (hu : utf8Valid line = true) :
    dot_stuffed (line ++ 13 :: 10 :: rest) =
      if line = [46] then .err else .ok (13 :: 10 :: rest) line :=
  dot_stuffed_line hch hu

theorem dot_stuffed_verbatim_witness :
    dot_stuffed ([46, 46] ++ 13 :: 10 :: []) =
      (if ([46, 46] : Bytes) = [46] then PResult.err else .ok (13 :: 10 :: []) [46, 46]) :=
  dot_stuffed_verbatim [46, 46] [] (by decide) (by decide)

/-- C9: a known capability tag whose remainder fails its own grammar falls
through to the `Other` alternative when the line still fits the generic
`capa-tag *(SP param) CRLF` shape -- for `TOP` followed by any nonempty
parameter list, for the concrete lines `"TOP extra\r\n"` and `"TOPS\r\n"` --
but not unconditionally: `"TOP \r\n"` (trailing space, no parameter) is a
syntax error. -/
theorem capability_known_tag_fallthrough :
    (∀ params : List Bytes, params ≠ [] →
      (∀ p ∈ params, p ≠ [] ∧ ∀ b ∈ p, is_VCHAR b = true) →
      capability ([84, 79, 80, 32] ++ joinSp params ++ [13, 10]) =
        .ok [] (Capability.other [84, 79, 80] params)) ∧
    capability [84, 79, 80, 32, 101, 120, 116, 114, 97, 13, 10] =
      .ok [] (Capability.other [84, 79, 80] [[101, 120, 116, 114, 97]]) ∧
    capability [84, 79, 80, 83, 13, 10] = .ok [] (Capability.other [84, 79, 80, 83] []) ∧
    capability [84, 79, 80, 32, 13, 10] = .err := by
  refine ⟨?_, by decide, by decide, by decide⟩
  intro params hne hv
  have hwf : (Capability.other [84, 79, 80] params).wf = true := by
    simp only [Capability.wf, Bool.and_eq_true]
    refine ⟨⟨⟨⟨by decide, by decide⟩, ?_⟩, ?_⟩, by decide⟩
    · cases params with
      | nil => exact absurd rfl hne
      | cons p ps => rfl
    · refine List.all_eq_true.mpr ?_
      intro x hx
      obtain ⟨h1, h2⟩ := hv x hx
      rw [Bool.and_eq_true]
      refine ⟨?_, List.all_eq_true.mpr fun b hb => h2 b hb⟩
      cases x with
      | nil => exact absurd rfl h1
      | cons a as => rfl
  have h := capability_roundtrip (Capability.other [84, 79, 80] params) hwf
  simp only [Capability.toBytes] at h
  simpa using h

theorem capability_known_tag_fallthrough_witness :
    capability ([84, 79, 80, 32] ++ joinSp [[88]] ++ [13, 10]) =
      .ok [] (Capability.other [84, 79, 80] [[88]]) :=
  capability_known_tag_fallthrough.1 [[88]] (by decide) (by decide)

/-- C9 counterexample: `"TOP \r\n"` has the known tag `TOP` and a remainder
matching no known grammar, yet the parser fails instead of falling through to
`Other`, refuting the unconditional fall-through claim. -/
theorem capability_known_tag_fallthrough_cex :
    capability [84, 79, 80, 32, 13, 10] = PResult.err := by
  decide

/-- C10: the command parser accepts an empty AUTH initial response:
`"AUTH X \r\n"` parses as mechanism `X` with `some ""`, distinct from
`"AUTH X\r\n"` (no initial response) and from `"AUTH X =\r\n"` (the literal
`=`). -/
theorem auth_empty_initial_response :
    command [65, 85, 84, 72, 32, 88, 32, 13, 10] = .ok [] (Command.auth [88] (some [])) ∧
    command [65, 85, 84, 72, 32, 88, 13, 10] = .ok [] (Command.auth [88] none) ∧
    command [65, 85, 84, 72, 32, 88, 32, 61, 13, 10] =
      .ok [] (Command.auth [88] (some [61])) := by
  decide

end Pop3
